import Mathlib

/-!
# heaplib.c : a boundary-tag allocator over a caller-supplied region

Shallow embedding of `src/heaplib.c` (`hl_init`, `hl_alloc`, `hl_release`,
`hl_resize`) and the properties the specification states about it.

## Target and memory model

The C source fixes neither the data model nor `ALIGNMENT` (the macro comes
from `heaplib.h`).  The embedding uses the LP64 little-endian layout:

* `unsigned int` is 4 bytes, a pointer and `size_t` are 8 bytes;
* `heap_header`       : `size` at offset 0, `first_free` at offset 8, 16 bytes;
* `free_block_header` : `size` at 0, `next_free` at 8, `prev_free` at 16, 24 bytes;
* `block_header`      : `size` at 0, 4 bytes.

`ALIGNMENT` is a parameter (`A`) of every operation that uses it.

Memory is the single object the caller hands to the allocator: the bytes
`[base, base + len)` at absolute addresses.  Every load and store checks that
the accessed bytes lie inside that object and that the address is not null;
an access outside it is undefined behaviour in C and yields `none` here.
Pointer arithmetic is modulo `2^64`, `unsigned int` arithmetic modulo `2^32`.
Loops carry a fuel argument; the top-level operations supply `len + 1`, which
bounds the number of distinct in-object addresses a loop can visit, so `none`
means: undefined behaviour or a loop that never ends.
-/

namespace Heaplib

/-! ## Machine arithmetic -/

/-- Number of `unsigned int` values. -/
def U32 : Nat := 2 ^ 32

/-- Number of pointer (and `size_t`) values. -/
def U64 : Nat := 2 ^ 64

/-- Subtraction in `unsigned int`. -/
def sub32 (a b : Nat) : Nat := (a % U32 + U32 - b % U32) % U32

/-- Subtraction in `size_t`. -/
def sub64 (a b : Nat) : Nat := (a % U64 + U64 - b % U64) % U64

/-- The macro `ADD_BYTES(base_addr, num_bytes)`. -/
def ADD_BYTES (p n : Nat) : Nat := (p + n) % U64

/-- The macro `SUB_BYTES(base_addr, num_bytes)`. -/
def SUB_BYTES (p n : Nat) : Nat := sub64 p n

/-- The value of `*(int *)&p` for a pointer `p`: its low 32 bits, signed. -/
def lowInt (p : Nat) : Int :=
  if p % U32 < 2 ^ 31 then (p % U32 : Nat) else (p % U32 : Nat) - (U32 : Int)

/-! ## Memory -/

/-- The caller's region: `len` bytes at absolute address `base`. -/
structure Mem where
  base : Nat
  len : Nat
  bytes : Nat → Nat

/-- An access of `n` bytes at address `a` stays inside the region. -/
def Mem.inRange (m : Mem) (a n : Nat) : Prop :=
  a ≠ 0 ∧ m.base ≤ a ∧ a + n ≤ m.base + m.len

instance (m : Mem) (a n : Nat) : Decidable (m.inRange a n) := by
  unfold Mem.inRange; infer_instance

/-- Little-endian value of the `n` bytes of `f` starting at `a`. -/
def readLE (f : Nat → Nat) (a : Nat) : Nat → Nat
  | 0 => 0
  | n + 1 => f a % 256 + 256 * readLE f (a + 1) n

/-- The byte map `f` with the `n` low bytes of `v` stored little-endian at `a`. -/
def writeLE (f : Nat → Nat) (a v : Nat) : Nat → (Nat → Nat)
  | 0 => f
  | n + 1 => fun x => if x = a then v % 256 else writeLE f (a + 1) (v / 256) n x

/-- The memory with the `n` low bytes of `v` stored little-endian at `a`. -/
def Mem.put (m : Mem) (a v n : Nat) : Mem :=
  { m with bytes := writeLE m.bytes a v n }

/-- Read an `unsigned int`. -/
def load32 (m : Mem) (a : Nat) : Option Nat :=
  if m.inRange a 4 then some (readLE m.bytes a 4) else none

/-- Read a pointer. -/
def load64 (m : Mem) (a : Nat) : Option Nat :=
  if m.inRange a 8 then some (readLE m.bytes a 8) else none

/-- Write an `unsigned int`. -/
def store32 (m : Mem) (a v : Nat) : Option Mem :=
  if m.inRange a 4 then some (m.put a v 4) else none

/-- Write a pointer. -/
def store64 (m : Mem) (a v : Nat) : Option Mem :=
  if m.inRange a 8 then some (m.put a v 8) else none

/-- The library call `memcpy(dst, src, n)`: both ranges must lie in the region
and must not overlap. -/
def memcpy (m : Mem) (dst src n : Nat) : Option Mem :=
  if n = 0 then some m
  else if m.inRange dst n ∧ m.inRange src n ∧ (dst + n ≤ src ∨ src + n ≤ dst) then
    some { m with bytes := fun x =>
      if dst ≤ x ∧ x < dst + n then m.bytes (src + (x - dst)) else m.bytes x }
  else none

/-! ## hl_init -/

/-- The function `hl_init` (lines 38-66).  The result is the returned `int`
and the memory. -/
def hl_init (A : Nat) (m : Mem) (heapptr heap_size : Nat) : Option (Nat × Mem) :=
  if heapptr = 0 then some (0, m)
  else
    let r : Int := Int.tmod (lowInt heapptr) (A : Int)
    let heap : Nat := if r ≠ 0 then Int.toNat (((heapptr : Int) + A - r) % (U64 : Int)) else heapptr
    do
      let m ← store32 m heap heap_size
      let m ← store64 m (ADD_BYTES heap 8) (ADD_BYTES heap 16)
      if heap_size < 16 then some (0, m)
      else do
        let root ← load64 m (ADD_BYTES heap 8)
        let m ← store32 m root (sub64 heap_size 16)
        let m ← store64 m (ADD_BYTES root 8) 0
        let m ← store64 m (ADD_BYTES root 16) 0
        let rs ← load32 m root
        let end_header := ADD_BYTES root (sub64 rs 4)
        let m ← store32 m end_header heap_size
        some (1, m)

/-- The address of the descriptor after lines 42-47 of `hl_init`: `heapptr`,
moved forward when the low 32 bits of the pointer, read as an `int`, are not a
multiple of `ALIGNMENT`. -/
def init_heap (A heapptr : Nat) : Nat :=
  let r : Int := Int.tmod (lowInt heapptr) (A : Int)
  if r ≠ 0 then Int.toNat (((heapptr : Int) + A - r) % (U64 : Int)) else heapptr

/-! ## hl_alloc -/

/-- The value of `total_size` after lines 78-81. -/
def total_size (A block_size : Nat) : Nat :=
  let t := (block_size + 8) % U32
  if t % A ≠ 0 then (t + (A - t % A)) % U32 else t

/-- Lines 97-104, the exact fit: the block is taken out of the free list.  The
result is the memory and `f_free`. -/
def alloc_exact (m : Mem) (header prev next : Nat) : Option (Mem × Nat) := do
  let m ← (if prev ≠ 0 then do
              let nf ← load64 m (ADD_BYTES header 8)
              store64 m (ADD_BYTES prev 8) nf
            else some m)
  if next ≠ 0 then do
    let pf ← load64 m (ADD_BYTES header 16)
    let m ← store64 m (ADD_BYTES next 16) pf
    some (m, next)
  else some (m, 0)

/-- Lines 107-124, the split: the tail of the block becomes the free block.
The result is the memory and `f_free`. -/
def alloc_split (m : Mem) (header prev next total : Nat) : Option (Mem × Nat) := do
  let shifted := ADD_BYTES header total
  let hs1 ← load32 m header
  let m ← store32 m shifted (sub32 hs1 total)
  let nf ← load64 m (ADD_BYTES header 8)
  let m ← store64 m (ADD_BYTES shifted 8) nf
  let pf ← load64 m (ADD_BYTES header 16)
  let m ← store64 m (ADD_BYTES shifted 16) pf
  let hs2 ← load32 m header
  let new_back_header := ADD_BYTES header (sub64 hs2 4)
  let hs3 ← load32 m header
  let m ← store32 m new_back_header (sub32 hs3 total)
  let m ← (if prev ≠ 0 then store64 m (ADD_BYTES prev 8) shifted else some m)
  let m ← (if next ≠ 0 then store64 m (ADD_BYTES next 16) shifted else some m)
  some (m, shifted)

/-- Lines 126-140: both size fields of the allocated block, `first_free`, and
the returned pointer. -/
def alloc_mark (m : Mem) (head first header total f_free : Nat) : Option (Nat × Mem) := do
  let m ← store32 m header ((total + 1) % U32)
  let m ← store32 m (ADD_BYTES header (sub64 total 4)) ((total + 1) % U32)
  let m ← (if first = header then store64 m (ADD_BYTES head 8) f_free else some m)
  some (header, m)

/-- Lines 92-140: the body run on the first block `header` whose size is at
least `total`. -/
def alloc_take (m : Mem) (head first header total : Nat) : Option (Nat × Mem) := do
  let prev ← load64 m (ADD_BYTES header 16)
  let next ← load64 m (ADD_BYTES header 8)
  let hs ← load32 m header
  let r ← (if hs = total then alloc_exact m header prev next
           else alloc_split m header prev next total)
  alloc_mark r.1 head first header total r.2

/-- The do-while loop of lines 90-143. -/
def alloc_loop : Nat → Mem → Nat → Nat → Nat → Nat → Option (Nat × Mem)
  | 0, _, _, _, _, _ => none
  | fuel + 1, m, head, first, header, total => do
      let hs ← load32 m header
      if hs ≥ total then alloc_take m head first header total
      else do
        let nxt ← load64 m (ADD_BYTES header 8)
        if nxt ≠ 0 then alloc_loop fuel m head first nxt total
        else some (0, m)

/-- The function `hl_alloc` (lines 72-146).  The result is the returned
pointer (0 for the null pointer) and the memory. -/
def hl_alloc (A : Nat) (m : Mem) (heapptr block_size : Nat) : Option (Nat × Mem) :=
  if block_size = 0 ∨ heapptr = 0 then some (0, m)
  else do
    let hsz ← load32 m heapptr
    if total_size A block_size > hsz then some (0, m)
    else do
      let first ← load64 m (ADD_BYTES heapptr 8)
      alloc_loop (m.len + 1) m heapptr first first (total_size A block_size)

/-! ## hl_release -/

/-- The loop of lines 192-194; the result is `first_free_block_after`. -/
def release_scan : Nat → Mem → Nat → Nat → Option Nat
  | 0, _, _, _ => none
  | fuel + 1, m, blockptr, current =>
      if current < blockptr ∧ current ≠ 0 then do
        let nxt ← load64 m (ADD_BYTES current 8)
        release_scan fuel m blockptr nxt
      else some current

/-- The loop of lines 247-309, entered with `current` and run until
`keep_going_back` is cleared. -/
def release_back : Nat → Mem → Nat → Nat → Nat → Nat → Nat → Nat → Nat → Option Mem
  | 0, _, _, _, _, _, _, _, _ => none
  | fuel + 1, m, heapptr, blockptr, block_size, after_size_ptr, is_alloc_after,
      first_free_block_after, current => do
      let c ← load32 m current
      let current := SUB_BYTES current c
      if current = 0 then do
        let m ← store64 m (ADD_BYTES blockptr 16) 0
        let m ← store64 m (ADD_BYTES heapptr 8) blockptr
        if is_alloc_after ≠ 0 then do
          let m ← store64 m (ADD_BYTES blockptr 8) first_free_block_after
          store32 m blockptr block_size
        else do
          let nf ← load64 m (ADD_BYTES after_size_ptr 8)
          let m ← store64 m (ADD_BYTES blockptr 8) nf
          let a ← load32 m after_size_ptr
          store32 m blockptr ((block_size + a) % U32)
      else do
        let cv ← load32 m current
        if cv % 2 = 0 then do
          let cv1 ← load32 m current
          let m ← store64 m (ADD_BYTES blockptr 16) (SUB_BYTES current (sub64 cv1 4))
          let cv2 ← load32 m current
          let found_free := SUB_BYTES current (sub64 cv2 4)
          if is_alloc_after = 1 then do
            let nf ← load64 m (ADD_BYTES found_free 8)
            let m ← store64 m (ADD_BYTES blockptr 8) nf
            let m ← store64 m (ADD_BYTES found_free 8) blockptr
            store32 m blockptr block_size
          else do
            let after_block_size ← load32 m after_size_ptr
            let total_free_size := (block_size + after_block_size) % U32
            let nf ← load64 m (ADD_BYTES after_size_ptr 8)
            let m ← store64 m (ADD_BYTES blockptr 8) nf
            let m ← store32 m blockptr total_free_size
            store64 m (ADD_BYTES found_free 8) blockptr
        else
          release_back fuel m heapptr blockptr block_size after_size_ptr is_alloc_after first_free_block_after current

/-- Lines 198-237: the body of the conditional of line 197. -/
def release_merge (m : Mem) (heapptr blockptr block_size before_size_ptr is_blockptr_first
    after_size_ptr : Nat) : Option Mem := do
  let hsz ← (if (before_size_ptr ≠ 0 ∧ is_blockptr_first = 0) ∧ after_size_ptr ≠ 0
              then load32 m heapptr else some 0)
  if (before_size_ptr ≠ 0 ∧ is_blockptr_first = 0) ∧ after_size_ptr ≠ 0
      ∧ after_size_ptr < ADD_BYTES heapptr hsz then do
    let b ← load32 m before_size_ptr
    let a ← load32 m after_size_ptr
    let total_free_size := (b + block_size + a) % U32
    let ptrsize ← load32 m before_size_ptr
    let before_ptr := SUB_BYTES blockptr ptrsize
    let m ← store32 m before_ptr total_free_size
    let nf ← load64 m (ADD_BYTES (ADD_BYTES blockptr block_size) 8)
    store64 m (ADD_BYTES before_ptr 8) nf
  else if (before_size_ptr = 0 ∨ is_blockptr_first = 1) ∧ after_size_ptr = 0 then do
    let m ← store64 m (ADD_BYTES blockptr 16) 0
    let m ← store64 m (ADD_BYTES blockptr 8) 0
    store32 m blockptr block_size
  else if before_size_ptr = 0 ∨ is_blockptr_first = 1 then do
    let after_block := ADD_BYTES blockptr block_size
    let after_block_size ← load32 m after_block
    let total_free_size := (block_size + after_block_size) % U32
    let m ← store32 m blockptr total_free_size
    let m ← store64 m (ADD_BYTES blockptr 16) 0
    let nf ← load64 m (ADD_BYTES after_block 8)
    store64 m (ADD_BYTES blockptr 8) nf
  else do
    let b ← load32 m before_size_ptr
    let before_block := SUB_BYTES blockptr b
    let bsz ← load32 m before_block
    let total := (block_size + bsz) % U32
    let m ← store32 m before_block total
    store64 m (ADD_BYTES before_block 8) 0

/-- Lines 314-333: the `else` of the conditional of line 240. -/
def release_extend (m : Mem) (heapptr blockptr block_size before_size_ptr is_blockptr_first
    first_free_block_after : Nat) : Option Mem :=
  if is_blockptr_first = 0 then do
    let b ← load32 m before_size_ptr
    let total_free_size := (block_size + b) % U32
    let b2 ← load32 m before_size_ptr
    let before_block := SUB_BYTES blockptr b2
    store32 m before_block total_free_size
  else do
    let m ← store32 m blockptr block_size
    let m ← store64 m (ADD_BYTES blockptr 16) 0
    let m ← store64 m (ADD_BYTES blockptr 8) first_free_block_after
    store64 m (ADD_BYTES heapptr 8) blockptr

/-- Lines 163-195: the value of `is_alloc_before` after line 175, where `u` is
the value the variable has when it is not assigned. -/
def release_before (m : Mem) (before_size_ptr is_blockptr_first : Nat) (u : Int) : Option Int :=
  if before_size_ptr = 0 ∨ is_blockptr_first = 1 then some 0
  else do
    let b ← load32 m before_size_ptr
    if b % 2 = 0 then some 0 else some u

/-- Lines 180-188: the value of `is_alloc_after`. -/
def release_after (m : Mem) (heapptr after_size_ptr : Nat) : Option Nat :=
  if after_size_ptr = 0 then some 0
  else do
    let hsz ← load32 m heapptr
    if after_size_ptr ≥ ADD_BYTES heapptr hsz then some 0
    else do
      let a ← load32 m after_size_ptr
      if a % 2 = 0 then some 0 else some 1

/-- Lines 197-333, run with the value `is_alloc_before`. -/
def release_finish (m : Mem) (heapptr blockptr block_size before_size_ptr is_blockptr_first
    after_size_ptr is_alloc_after first_free_block_after : Nat) (is_alloc_before : Int) :
    Option Mem := do
  let m ← (if is_alloc_before = 0 ∧ is_alloc_after = 0 then
      release_merge m heapptr blockptr block_size before_size_ptr is_blockptr_first after_size_ptr
    else some m)
  if is_alloc_before = 1 then
    release_back (m.len + 1) m heapptr blockptr block_size after_size_ptr is_alloc_after
      first_free_block_after before_size_ptr
  else
    release_extend m heapptr blockptr block_size before_size_ptr is_blockptr_first
      first_free_block_after

/-- The function `hl_release` (lines 151-334).  The variable `is_alloc_before`
is declared without an initialiser (line 156) and assigned only when the
condition of line 173 holds; `u` is the indeterminate value it has otherwise. -/
def hl_release (m : Mem) (heapptr blockptr : Nat) (u : Int) : Option Mem :=
  if blockptr = 0 ∨ heapptr = 0 then some m
  else do
    let bs ← load32 m blockptr
    let block_size := sub32 bs 1
    let before_size_ptr := SUB_BYTES blockptr 4
    let is_blockptr_first : Nat := if SUB_BYTES blockptr (16 + 1) = 0 then 1 else 0
    let is_alloc_before ← release_before m before_size_ptr is_blockptr_first u
    let after_size_ptr := ADD_BYTES blockptr block_size
    let is_alloc_after ← release_after m heapptr after_size_ptr
    let current ← load64 m (ADD_BYTES heapptr 8)
    let first_free_block_after ← release_scan (m.len + 1) m blockptr current
    release_finish m heapptr blockptr block_size before_size_ptr is_blockptr_first
      after_size_ptr is_alloc_after first_free_block_after is_alloc_before

/-! ## hl_resize -/

/-- The function `hl_resize` (lines 342-355); `u` is passed on to the
`hl_release` call of line 353. -/
def hl_resize (A : Nat) (m : Mem) (heapptr blockptr new_block_size : Nat) (u : Int) :
    Option (Nat × Mem) :=
  if new_block_size = 0 ∨ blockptr = 0 ∨ heapptr = 0 then some (0, m)
  else do
    let (new_alloc, m) ← hl_alloc A m heapptr new_block_size
    if new_alloc = 0 then some (0, m)
    else do
      let osz ← load32 m blockptr
      let m ← memcpy m (ADD_BYTES new_alloc 4) (ADD_BYTES blockptr 4) (sub32 osz 1)
      let m ← hl_release m heapptr blockptr u
      some (ADD_BYTES new_alloc 4, m)

/-! ## Heap well-formedness

The invariants of the data model, as executable checks on a memory. -/

/-- A block of the region: the address of its leading size field, its size
in bytes (flag bit cleared) and its allocated flag. -/
structure Block where
  addr : Nat
  size : Nat
  alloc : Bool
deriving DecidableEq

/-- Walk from address `a` to address `e` by leading size fields (flag bit
cleared); `none` when a size field cannot be read, a size is 0, or a block
runs past `e`. -/
def blocksFrom : Nat → Mem → Nat → Nat → Option (List Block)
  | 0, _, _, _ => none
  | fuel + 1, m, a, e =>
      if a = e then some []
      else if e < a then none
      else
        match load32 m a with
        | none => none
        | some v =>
            if v - v % 2 = 0 then none
            else
              match blocksFrom fuel m (a + (v - v % 2)) e with
              | none => none
              | some bs => some (⟨a, v - v % 2, decide (v % 2 = 1)⟩ :: bs)

/-- The blocks found between the descriptor and the end of the region. -/
def heapBlocks (m : Mem) (heapptr : Nat) : Option (List Block) :=
  blocksFrom (m.len + 1) m (heapptr + 16) (heapptr + m.len)

/-- The addresses visited from `p` via `next_free` until the null pointer. -/
def freeListFrom : Nat → Mem → Nat → Option (List Nat)
  | 0, _, _ => none
  | fuel + 1, m, p =>
      if p = 0 then some []
      else
        match load64 m (p + 8) with
        | none => none
        | some nxt =>
            match freeListFrom fuel m nxt with
            | none => none
            | some l => some (p :: l)

/-- The free list read from `first_free`. -/
def freeList (m : Mem) (heapptr : Nat) : Option (List Nat) :=
  match load64 m (heapptr + 8) with
  | none => none
  | some first => freeListFrom (m.len + 1) m first

/-- Every block of the list has `prev_free` equal to the block visited
before it (`q` for the first one). -/
def prevLinked (m : Mem) : Nat → List Nat → Prop
  | _, [] => True
  | q, p :: l => load64 m (p + 16) = some q ∧ prevLinked m p l

instance prevLinkedDecidable (m : Mem) : (q : Nat) → (l : List Nat) → Decidable (prevLinked m q l)
  | _, [] => isTrue trivial
  | _, p :: l =>
      @instDecidableAnd _ _ _ (prevLinkedDecidable m p l)

/-- Boundary tags of one block: leading and trailing size field both hold the
size, with the low bit set exactly for an allocated block; a free block has
room for its header and its trailing field, an allocated one for its two
size fields. -/
def tagsOK (m : Mem) (b : Block) : Prop :=
  load32 m b.addr = some (b.size + (if b.alloc then 1 else 0)) ∧
  load32 m (b.addr + b.size - 4) = some (b.size + (if b.alloc then 1 else 0)) ∧
  b.size % 2 = 0 ∧ (if b.alloc then 8 else 28) ≤ b.size

instance (m : Mem) (b : Block) : Decidable (tagsOK m b) := by
  unfold tagsOK; infer_instance

/-- Addresses of the free blocks of a block list. -/
def freeAddrs (bs : List Block) : List Nat :=
  (bs.filter (fun b => !b.alloc)).map Block.addr

/-- The heap at `heapptr` is well formed with blocks `bs` and free list `fl`:
the descriptor is at the start of the region and records its length, the
blocks tile the rest of the region, all boundary tags are right, and the free
list visits exactly the free blocks, each once, with correct back links. -/
def WellFormedWith (m : Mem) (heapptr : Nat) (bs : List Block) (fl : List Nat) : Prop :=
  heapptr = m.base ∧ heapptr ≠ 0 ∧ m.base + m.len < U64 ∧ load32 m heapptr = some m.len ∧
  heapBlocks m heapptr = some bs ∧ (∀ b ∈ bs, tagsOK m b) ∧
  freeList m heapptr = some fl ∧ prevLinked m 0 fl ∧ fl.Perm (freeAddrs bs)

instance (m : Mem) (heapptr : Nat) (bs : List Block) (fl : List Nat) :
    Decidable (WellFormedWith m heapptr bs fl) := by
  unfold WellFormedWith; infer_instance

/-- The heap at `heapptr` is well formed. -/
def WellFormed (m : Mem) (heapptr : Nat) : Prop :=
  ∃ bs fl, WellFormedWith m heapptr bs fl

/-- The tiling invariant alone: the walk by leading size fields from just past
the descriptor ends exactly at `heapptr + total_size`. -/
def Tiles (m : Mem) (heapptr : Nat) : Prop :=
  ∃ n bs, load32 m heapptr = some n ∧ blocksFrom (m.len + 1) m (heapptr + 16) (heapptr + n) = some bs

/-- Executable form of `Tiles`. -/
def tilesCheck (m : Mem) (heapptr : Nat) : Bool :=
  match load32 m heapptr with
  | none => false
  | some n => (blocksFrom (m.len + 1) m (heapptr + 16) (heapptr + n)).isSome

/-- Executable form of `WellFormed`. -/
def wellFormedCheck (m : Mem) (heapptr : Nat) : Bool :=
  match heapBlocks m heapptr, freeList m heapptr with
  | some bs, some fl => decide (WellFormedWith m heapptr bs fl)
  | _, _ => false

instance (m : Mem) (heapptr : Nat) : Decidable (WellFormed m heapptr) :=
  decidable_of_iff (wellFormedCheck m heapptr = true) (by
    unfold wellFormedCheck WellFormed
    constructor
    · intro h
      split at h
      · rename_i bs fl _ _
        exact ⟨bs, fl, of_decide_eq_true h⟩
      · cases h
    · rintro ⟨bs, fl, h⟩
      have hb : heapBlocks m heapptr = some bs := h.2.2.2.2.1
      have hf : freeList m heapptr = some fl := h.2.2.2.2.2.2.1
      rw [hb, hf]
      exact decide_eq_true h)

instance (m : Mem) (heapptr : Nat) : Decidable (Tiles m heapptr) :=
  decidable_of_iff (tilesCheck m heapptr = true) (by
    unfold tilesCheck Tiles
    constructor
    · intro h
      split at h
      · cases h
      · rename_i n hn
        obtain ⟨bs, hbs⟩ := Option.isSome_iff_exists.mp h
        exact ⟨n, bs, hn, hbs⟩
    · rintro ⟨n, bs, hn, hbs⟩
      rw [hn]
      simp only [hbs, Option.isSome_some])

/-- The first `n` bytes of the caller's object, as a region of their own: the
heap proper when the object is longer than the `heap_size` given to `hl_init`. -/
def Mem.heapPart (m : Mem) (n : Nat) : Mem := { m with len := n }

/-! ## Outcomes of an operation -/

/-- The operation returned, with a result satisfying `P`. -/
def Returns {α : Type} (o : Option α) (P : α → Prop) : Prop :=
  ∃ a, o = some a ∧ P a

instance {α : Type} (o : Option α) (P : α → Prop) [DecidablePred P] : Decidable (Returns o P) :=
  match o with
  | none => isFalse (fun h => by obtain ⟨a, h1, _⟩ := h; cases h1)
  | some a =>
      if h : P a then isTrue ⟨a, rfl, h⟩
      else isFalse (fun h2 => by obtain ⟨b, h1, h3⟩ := h2; cases h1; exact h h3)

/-- The operation did not return: an access left the region, or a loop never
ended. -/
def Faults {α : Type} (o : Option α) : Prop := o.isNone = true

instance {α : Type} (o : Option α) : Decidable (Faults o) := by
  unfold Faults; infer_instance

/-! ## The caller's side -/

/-- The caller writes the bytes `l` at `a`, `a + 1`, ... -/
def write_bytes (m : Mem) (a : Nat) : List Nat → Option Mem
  | [] => some m
  | b :: l =>
      if m.inRange a 1 then
        write_bytes { m with bytes := fun x => if x = a then b % 256 else m.bytes x } (a + 1) l
      else none

/-- The caller reads `n` bytes at `a`, `a + 1`, ... -/
def read_bytes (m : Mem) (a : Nat) : Nat → Option (List Nat)
  | 0 => some []
  | n + 1 =>
      if m.inRange a 1 then
        match read_bytes m (a + 1) n with
        | none => none
        | some l => some (m.bytes a % 256 :: l)
      else none

/-- A region of 1000 zero bytes at address 4096. -/
def region1000 : Mem := ⟨4096, 1000, fun _ => 0⟩

/-- The heap is one free block just past the descriptor, reachable as
`first_free`, of size `n - sizeof(heap_header)`. -/
def SingleFreeBlock (m : Mem) (heapptr n : Nat) : Prop :=
  load64 m (heapptr + 8) = some (heapptr + 16) ∧ load32 m (heapptr + 16) = some (n - 16)

instance (m : Mem) (heapptr n : Nat) : Decidable (SingleFreeBlock m heapptr n) := by
  unfold SingleFreeBlock; infer_instance

/-- The scenario of the specification with `ALIGNMENT` 8: a heap of 1000 bytes,
three allocations of 100 bytes; the result is the three references and the
memory. -/
def threeAllocs : Option (Nat × Nat × Nat × Mem) := do
  let r ← hl_init 8 region1000 4096 1000
  let a ← hl_alloc 8 r.2 4096 100
  let b ← hl_alloc 8 a.2 4096 100
  let c ← hl_alloc 8 b.2 4096 100
  some (a.1, b.1, c.1, c.2)

/-- The scenario continued: release the second, the first, then the third
reference; `u1`, `u2`, `u3` are the indeterminate values of the three calls. -/
def roundTrip (u1 u2 u3 : Int) : Option Mem := do
  let s ← threeAllocs
  let m ← hl_release s.2.2.2 4096 s.2.1 u1
  let m ← hl_release m 4096 s.1 u2
  hl_release m 4096 s.2.2.1 u3

/-- One allocation of 100 bytes on the heap of 1000 bytes; the result is the
reference and the memory. -/
def oneAlloc : Option (Nat × Mem) := do
  let r ← hl_init 8 region1000 4096 1000
  hl_alloc 8 r.2 4096 100

/-- One allocation of 100 bytes, released again. -/
def allocRelease (u : Int) : Option Mem := do
  let a ← oneAlloc
  hl_release a.2 4096 a.1 u

/-- One allocation of 100 bytes, then `hl_resize` of that block to `n` bytes. -/
def allocResize (n : Nat) (u : Int) : Option (Nat × Mem) := do
  let a ← oneAlloc
  hl_resize 8 a.2 4096 a.1 n u

/-- The only distinctions `hl_release` makes on the indeterminate value. -/
def uclass (u : Int) : Int := if u = 0 then 0 else if u = 1 then 1 else 2

/-- The bytes a caller writes into a 100-byte allocation: the first four
repeat the value 113 already stored there, the others are 1, 2, ..., 96. -/
def pattern100 : List Nat := [113, 0, 0, 0] ++ (List.range 96).map (fun i => i + 1)

/-- Payload scenario with `ALIGNMENT` 8: a heap of 1000 bytes, one allocation of
100 bytes, the caller writes `pattern100` at the returned reference and resizes
the block to 200 bytes. -/
def resizeAfterWrite (u : Int) : Option (Nat × Mem) := do
  let a ← oneAlloc
  let m ← write_bytes a.2 a.1 pattern100
  hl_resize 8 m 4096 a.1 200 u

/-- The memory after `hl_init(region, 1000)` with `ALIGNMENT` 8 on the region of
1000 zero bytes. -/
def heap1000 : Mem :=
  match hl_init 8 region1000 4096 1000 with
  | some r => r.2
  | none => region1000

/-- A region of `len` zero bytes at 4096 after the stores `ws`, each an
address, a value and a width in bytes. -/
def regionWith (len : Nat) (ws : List (Nat × Nat × Nat)) : Mem :=
  ws.foldl (fun m w => m.put w.1 w.2.1 w.2.2) ⟨4096, len, fun _ => 0⟩

/-- A heap of 182 bytes at 4096: a free block of size 100 at 4112, an allocated
block of size 16 at 4212 and a free block of size 50 at 4228; the free list is
the 100-sized block followed by the 50-sized block. -/
def fitHeap : Mem :=
  regionWith 182
    [(4096, 182, 4), (4104, 4112, 8),
     (4112, 100, 4), (4120, 4228, 8), (4128, 0, 8), (4208, 100, 4),
     (4212, 17, 4), (4224, 17, 4),
     (4228, 50, 4), (4236, 0, 8), (4244, 4112, 8), (4274, 50, 4)]

/-- The same blocks with the free list in the other order: the 50-sized block
followed by the 100-sized block. -/
def fitHeapRev : Mem :=
  regionWith 182
    [(4096, 182, 4), (4104, 4228, 8),
     (4112, 100, 4), (4120, 0, 8), (4128, 4228, 8), (4208, 100, 4),
     (4212, 17, 4), (4224, 17, 4),
     (4228, 50, 4), (4236, 4112, 8), (4244, 0, 8), (4274, 50, 4)]

/-- A region of `len` zero bytes at address 4096. -/
def zeroRegion (len : Nat) : Mem := ⟨4096, len, fun _ => 0⟩

/-- Two allocations of 100 bytes on the heap of 1000 bytes; the result is the
two references and the memory. -/
def twoAllocs : Option (Nat × Nat × Mem) := do
  let a ← oneAlloc
  let b ← hl_alloc 8 a.2 4096 100
  some (a.1, b.1, b.2)

/-- The first of two allocations released. -/
def releaseFirstOfTwo (u : Int) : Option Mem := do
  let s ← twoAllocs
  hl_release s.2.2 4096 s.1 u

/-- A heap of 104 bytes at 4096: a free block of size 40 at 4112, then two
allocated blocks of size 24 at 4152 and 4176; the free list is the block at
4112. -/
def caseTwoHeap : Mem :=
  regionWith 104
    [(4096, 104, 4), (4104, 4112, 8),
     (4112, 40, 4), (4120, 0, 8), (4128, 0, 8), (4148, 40, 4),
     (4152, 25, 4), (4172, 25, 4),
     (4176, 25, 4), (4196, 25, 4)]

/-- A heap of 120 bytes at 4096: a free block of size 40 at 4112, an allocated
block of size 24 at 4152 and a free block of size 40 at 4176; the free list is
4112, 4176. -/
def caseFourHeap : Mem :=
  regionWith 120
    [(4096, 120, 4), (4104, 4112, 8),
     (4112, 40, 4), (4120, 4176, 8), (4128, 0, 8), (4148, 40, 4),
     (4152, 25, 4), (4172, 25, 4),
     (4176, 40, 4), (4184, 0, 8), (4192, 4112, 8), (4212, 40, 4)]

/-- Three allocations of 100 bytes, then `hl_release` of the reference
`blockptr`. -/
def releaseOfThree (blockptr : Nat) (u : Int) : Option Mem := do
  let s ← threeAllocs
  hl_release s.2.2.2 4096 blockptr u

/-- One allocation of 100 bytes, `hl_resize` to 200 bytes, then `hl_release`
of the reference that `hl_resize` returned. -/
def resizeThenRelease (u v : Int) : Option Mem := do
  let q ← allocResize 200 u
  hl_release q.2 4096 q.1 v

/-- One allocation of 100 bytes, `hl_resize` to 200 bytes, then `hl_resize` to
300 bytes of the reference that the first `hl_resize` returned. -/
def resizeThenResize (u v : Int) : Option (Nat × Mem) := do
  let q ← allocResize 200 u
  hl_resize 8 q.2 4096 q.1 300 v

/-- One allocation of 100 bytes followed by the inner `hl_alloc` of a resize to
101 bytes (line 346). -/
def allocThenAlloc101 : Option (Nat × Mem) := do
  let a ← oneAlloc
  hl_alloc 8 a.2 4096 101

/-- A heap of 1000 bytes at the start of an object of 1100 bytes, after
`hl_init(object, 1000)` and one `hl_alloc` of 100 bytes with `ALIGNMENT` 8. -/
def slackHeap : Mem :=
  match (hl_init 8 (zeroRegion 1100) 4096 1000).bind (fun r => hl_alloc 8 r.2 4096 100) with
  | some a => a.2
  | none => zeroRegion 1100

/-! ## Basic facts -/

theorem uclass_mem (u : Int) : uclass u ∈ [(0 : Int), 1, 2] := by
  unfold uclass; split_ifs <;> simp

theorem release_finish_uclass (m : Mem) (a b c d e f g h : Nat) (u : Int) :
    release_finish m a b c d e f g h u = release_finish m a b c d e f g h (uclass u) := by
  by_cases h0 : u = 0
  · subst h0; rw [show uclass 0 = 0 from rfl]
  by_cases h1 : u = 1
  · subst h1; rw [show uclass 1 = 1 from rfl]
  have hc : uclass u = 2 := by simp [uclass, h0, h1]
  have h20 : ¬ ((2 : Int) = 0) := by decide
  have h21 : ¬ ((2 : Int) = 1) := by decide
  rw [hc]
  unfold release_finish
  simp only [h0, h1, h20, h21, false_and, if_false]

theorem release_before_bind (m : Mem) (a b : Nat) (u v : Int) (F : Int → Option Mem)
    (h : F u = F v) :
    (release_before m a b u).bind F = (release_before m a b v).bind F := by
  unfold release_before
  by_cases hf : a = 0 ∨ b = 1
  · rw [if_pos hf, if_pos hf]
  rw [if_neg hf, if_neg hf]
  cases load32 m a with
  | none => simp only [Option.bind_eq_bind, Option.none_bind]
  | some w =>
    simp only [Option.bind_eq_bind, Option.some_bind]
    by_cases hb : w % 2 = 0
    · rw [if_pos hb, if_pos hb]
    rw [if_neg hb, if_neg hb]
    simpa only [Option.some_bind] using h

/-- The result of `hl_release` depends on the indeterminate value only through
its class: 0, 1, or anything else. -/
theorem hl_release_uclass (m : Mem) (hp bp : Nat) (u : Int) :
    hl_release m hp bp u = hl_release m hp bp (uclass u) := by
  unfold hl_release
  by_cases hz : bp = 0 ∨ hp = 0
  · rw [if_pos hz, if_pos hz]
  rw [if_neg hz, if_neg hz]
  refine congrArg (fun f => Option.bind (load32 m bp) f) (funext fun bs => ?_)
  refine release_before_bind m _ _ u (uclass u) _ ?_
  simp only [release_finish_uclass _ _ _ _ _ _ _ _ _ u]

theorem hl_resize_uclass (A : Nat) (m : Mem) (hp bp n : Nat) (u : Int) :
    hl_resize A m hp bp n u = hl_resize A m hp bp n (uclass u) := by
  unfold hl_resize
  simp only [hl_release_uclass _ _ _ u]

/-! ## Memory lemmas -/
theorem readLE_lt (f : Nat → Nat) (a n : Nat) : readLE f a n < 256 ^ n := by
  induction n generalizing a with
  | zero => simp [readLE]
  | succ k ih =>
    have h1 := ih (a + 1)
    have h2 : f a % 256 < 256 := Nat.mod_lt _ (by decide)
    simp only [readLE, pow_succ]
    omega

theorem readLE_congr (f g : Nat → Nat) (b k : Nat)
    (h : ∀ x, b ≤ x → x < b + k → f x = g x) : readLE f b k = readLE g b k := by
  induction k generalizing b with
  | zero => rfl
  | succ j ih =>
    simp only [readLE]
    rw [h b (le_refl _) (by omega), ih (b + 1) (fun x h1 h2 => h x (by omega) (by omega))]

theorem writeLE_outside (f : Nat → Nat) (a v n x : Nat) (h : x < a ∨ a + n ≤ x) :
    writeLE f a v n x = f x := by
  induction n generalizing a v with
  | zero => rfl
  | succ j ih =>
    simp only [writeLE]
    have hx : x ≠ a := by omega
    rw [if_neg hx]
    exact ih (a + 1) (v / 256) (by omega)

theorem readLE_writeLE_disj (f : Nat → Nat) (a v n b k : Nat) (h : b + k ≤ a ∨ a + n ≤ b) :
    readLE (writeLE f a v n) b k = readLE f b k :=
  readLE_congr _ _ _ _ (fun x h1 h2 => writeLE_outside f a v n x (by omega))

theorem readLE_writeLE_same (f : Nat → Nat) (a v n : Nat) :
    readLE (writeLE f a v n) a n = v % 256 ^ n := by
  induction n generalizing a v with
  | zero => simp [readLE, Nat.mod_one]
  | succ j ih =>
    have hc : readLE (writeLE f a v (j + 1)) (a + 1) j
        = readLE (writeLE f (a + 1) (v / 256) j) (a + 1) j := by
      apply readLE_congr
      intro x h1 _
      have hx : x ≠ a := by omega
      simp only [writeLE, if_neg hx]
    simp only [readLE]
    rw [hc, ih]
    simp only [writeLE, if_true, Nat.mod_mod]
    rw [pow_succ, Nat.mul_comm (256 ^ j) 256, Nat.mod_mul]

theorem load32_eq {m : Mem} {a : Nat} (h : m.inRange a 4) :
    load32 m a = some (readLE m.bytes a 4) := by
  unfold load32; rw [if_pos h]

theorem load64_eq {m : Mem} {a : Nat} (h : m.inRange a 8) :
    load64 m a = some (readLE m.bytes a 8) := by
  unfold load64; rw [if_pos h]

theorem store32_eq {m : Mem} {a : Nat} (v : Nat) (h : m.inRange a 4) :
    store32 m a v = some (m.put a v 4) := by
  unfold store32; rw [if_pos h]

theorem store64_eq {m : Mem} {a : Nat} (v : Nat) (h : m.inRange a 8) :
    store64 m a v = some (m.put a v 8) := by
  unfold store64; rw [if_pos h]

theorem load32_inRange {m : Mem} {a v : Nat} (h : load32 m a = some v) : m.inRange a 4 := by
  unfold load32 at h
  by_cases hr : m.inRange a 4
  · exact hr
  · rw [if_neg hr] at h; cases h

theorem load64_inRange {m : Mem} {a v : Nat} (h : load64 m a = some v) : m.inRange a 8 := by
  unfold load64 at h
  by_cases hr : m.inRange a 8
  · exact hr
  · rw [if_neg hr] at h; cases h

theorem load32_lt {m : Mem} {a v : Nat} (h : load32 m a = some v) : v < U32 := by
  rw [load32_eq (load32_inRange h)] at h
  cases h
  exact readLE_lt _ _ 4

theorem inRange_put (m : Mem) (a v n b k : Nat) :
    (m.put a v n).inRange b k ↔ m.inRange b k := Iff.rfl

/-! ## hl_alloc on a well-formed heap -/
theorem U32_eq : U32 = 4294967296 := by decide
theorem U64_eq : U64 = 18446744073709551616 := by decide

theorem alloc_exact_ok (m : Mem) (F prev next : Nat)
    (h8 : m.inRange (ADD_BYTES F 8) 8) (h16 : m.inRange (ADD_BYTES F 16) 8)
    (hp : prev ≠ 0 → m.inRange (ADD_BYTES prev 8) 8)
    (hn : next ≠ 0 → m.inRange (ADD_BYTES next 16) 8) :
    ∃ r, alloc_exact m F prev next = some r ∧ r.1.base = m.base ∧ r.1.len = m.len := by
  unfold alloc_exact
  simp only [Option.bind_eq_bind]
  by_cases hp0 : prev ≠ 0
  · rw [if_pos hp0, load64_eq h8, Option.some_bind, store64_eq _ (hp hp0), Option.some_bind]
    by_cases hn0 : next ≠ 0
    · rw [if_pos hn0, load64_eq (m := m.put _ _ _) h16, Option.some_bind,
        store64_eq (m := m.put _ _ _) _ (hn hn0), Option.some_bind]
      exact ⟨_, rfl, rfl, rfl⟩
    · rw [if_neg hn0]
      exact ⟨_, rfl, rfl, rfl⟩
  · rw [if_neg hp0, Option.some_bind]
    by_cases hn0 : next ≠ 0
    · rw [if_pos hn0, load64_eq h16, Option.some_bind, store64_eq _ (hn hn0), Option.some_bind]
      exact ⟨_, rfl, rfl, rfl⟩
    · rw [if_neg hn0]
      exact ⟨_, rfl, rfl, rfl⟩

theorem alloc_split_ok (m : Mem) (F prev next T s : Nat)
    (hU : m.base + m.len < U64)
    (hF : load32 m F = some s)
    (h8 : m.inRange (ADD_BYTES F 8) 8) (h16 : m.inRange (ADD_BYTES F 16) 8)
    (hT : T = 0 ∨ 4 ≤ T) (hs4 : 4 ≤ s) (hroom : F + T + 24 ≤ m.base + m.len)
    (hin : F + s ≤ m.base + m.len)
    (hp : prev ≠ 0 → m.inRange (ADD_BYTES prev 8) 8)
    (hn : next ≠ 0 → m.inRange (ADD_BYTES next 16) 8) :
    ∃ r, alloc_split m F prev next T = some r ∧ r.1.base = m.base ∧ r.1.len = m.len := by
  have hFr := load32_inRange hF
  have hs32 := load32_lt hF
  have hval : readLE m.bytes F 4 = s := by
    rw [load32_eq hFr] at hF; exact Option.some.inj hF
  obtain ⟨hF0, hFb, hFe⟩ := hFr
  rw [U64_eq] at hU
  rw [U32_eq] at hs32
  have e1 : ADD_BYTES F T = F + T := by
    unfold ADD_BYTES; rw [U64_eq]; omega
  have e2 : ADD_BYTES (F + T) 8 = F + T + 8 := by
    unfold ADD_BYTES; rw [U64_eq]; omega
  have e3 : ADD_BYTES (F + T) 16 = F + T + 16 := by
    unfold ADD_BYTES; rw [U64_eq]; omega
  have e4 : ADD_BYTES F (sub64 s 4) = F + s - 4 := by
    unfold ADD_BYTES sub64; rw [U64_eq]; omega
  have r1 : m.inRange (F + T) 4 := ⟨by omega, by omega, by omega⟩
  have r2 : m.inRange (F + T + 8) 8 := ⟨by omega, by omega, by omega⟩
  have r3 : m.inRange (F + T + 16) 8 := ⟨by omega, by omega, by omega⟩
  have r4 : m.inRange (F + s - 4) 4 := ⟨by omega, by omega, by omega⟩
  have hFr : m.inRange F 4 := ⟨hF0, hFb, hFe⟩
  have hre : ∀ v2 v3, readLE (((m.put (F + T) (sub32 s T) 4).put (F + T + 8) v2 8).put
      (F + T + 16) v3 8).bytes F 4 = s := by
    intro v2 v3
    show readLE (writeLE (writeLE (writeLE m.bytes (F + T) (sub32 s T) 4) (F + T + 8) v2 8)
      (F + T + 16) v3 8) F 4 = s
    rw [readLE_writeLE_disj _ _ _ _ _ _ (by omega), readLE_writeLE_disj _ _ _ _ _ _ (by omega)]
    rcases hT with hT | hT
    · subst hT
      rw [Nat.add_zero, readLE_writeLE_same]
      unfold sub32
      rw [U32_eq]
      omega
    · rw [readLE_writeLE_disj _ _ _ _ _ _ (by omega)]
      exact hval
  unfold alloc_split
  simp only [Option.bind_eq_bind]
  rw [e1, e2, e3, hF, Option.some_bind, store32_eq _ r1, Option.some_bind,
    load64_eq (m := m.put _ _ _) h8, Option.some_bind,
    store64_eq (m := m.put _ _ _) _ r2, Option.some_bind,
    load64_eq (m := (m.put _ _ _).put _ _ _) h16, Option.some_bind,
    store64_eq (m := (m.put _ _ _).put _ _ _) _ r3, Option.some_bind,
    load32_eq (m := ((m.put _ _ _).put _ _ _).put _ _ _) hFr, Option.some_bind, Option.some_bind,
    hre, e4, store32_eq (m := ((m.put _ _ _).put _ _ _).put _ _ _) _ r4, Option.some_bind]
  by_cases hp0 : prev ≠ 0
  · rw [if_pos hp0, store64_eq (m := (((m.put _ _ _).put _ _ _).put _ _ _).put _ _ _) _ (hp hp0),
      Option.some_bind]
    by_cases hn0 : next ≠ 0
    · rw [if_pos hn0, store64_eq
        (m := ((((m.put _ _ _).put _ _ _).put _ _ _).put _ _ _).put _ _ _) _ (hn hn0),
        Option.some_bind]
      exact ⟨_, rfl, rfl, rfl⟩
    · rw [if_neg hn0, Option.some_bind]
      exact ⟨_, rfl, rfl, rfl⟩
  · rw [if_neg hp0, Option.some_bind]
    by_cases hn0 : next ≠ 0
    · rw [if_pos hn0, store64_eq
        (m := (((m.put _ _ _).put _ _ _).put _ _ _).put _ _ _) _ (hn hn0), Option.some_bind]
      exact ⟨_, rfl, rfl, rfl⟩
    · rw [if_neg hn0, Option.some_bind]
      exact ⟨_, rfl, rfl, rfl⟩

theorem inRange_congr {m m1 : Mem} (hb : m1.base = m.base) (hl : m1.len = m.len) {a n : Nat}
    (h : m.inRange a n) : m1.inRange a n := by
  unfold Mem.inRange at h ⊢
  rw [hb, hl]; exact h

theorem alloc_mark_ok (m : Mem) (head first F T ff : Nat)
    (hU : m.base + m.len < U64)
    (hFr : m.inRange F 4) (hT4 : T % 4 = 0) (hTle : F + T ≤ m.base + m.len)
    (hlow : m.base + 16 ≤ F) (hT32 : T + 1 < U32)
    (hh : m.inRange (ADD_BYTES head 8) 8) (hhd : ADD_BYTES head 8 + 8 ≤ F) :
    ∃ m1, alloc_mark m head first F T ff = some (F, m1) ∧ load32 m1 F = some (T + 1) ∧
      m1.base = m.base ∧ m1.len = m.len := by
  rw [U64_eq] at hU
  have hv : (T + 1) % U32 = T + 1 := Nat.mod_eq_of_lt hT32
  have h256 : (256 : Nat) ^ 4 = U32 := by decide
  obtain ⟨hF0, hFb, hFe⟩ := hFr
  have hfa : ADD_BYTES F (sub64 T 4) = (if T = 0 then F - 4 else F + T - 4) := by
    unfold ADD_BYTES sub64
    rw [U64_eq]
    split <;> omega
  have rfa : m.inRange (if T = 0 then F - 4 else F + T - 4) 4 := by
    refine ⟨?_, ?_, ?_⟩ <;> split <;> omega
  have hFr : m.inRange F 4 := ⟨hF0, hFb, hFe⟩
  have hread : ∀ g : Nat → Nat,
      readLE (writeLE (writeLE g F (T + 1) 4) (if T = 0 then F - 4 else F + T - 4) (T + 1) 4) F 4
        = T + 1 := by
    intro g
    by_cases h4 : T = 4
    · subst h4
      have : (if 4 = 0 then F - 4 else F + 4 - 4) = F := by
        rw [if_neg (by decide)]; omega
      rw [this, readLE_writeLE_same, h256]
      exact hv
    · rw [readLE_writeLE_disj _ _ _ _ _ _ (by split <;> omega), readLE_writeLE_same, h256]
      exact hv
  unfold alloc_mark
  simp only [Option.bind_eq_bind]
  rw [hv, hfa, store32_eq _ hFr, Option.some_bind, store32_eq (m := m.put _ _ _) _ rfa,
    Option.some_bind]
  by_cases hf : first = F
  · rw [if_pos hf, store64_eq (m := (m.put _ _ _).put _ _ _) _ hh, Option.some_bind]
    refine ⟨_, rfl, ?_, rfl, rfl⟩
    rw [load32_eq (m := ((m.put _ _ _).put _ _ _).put _ _ _) hFr]
    show some (readLE (writeLE (writeLE (writeLE m.bytes F (T + 1) 4) _ (T + 1) 4) _ _ 8) F 4) = _
    rw [readLE_writeLE_disj _ _ _ _ _ _ (Or.inr hhd), hread]
  · rw [if_neg hf, Option.some_bind]
    refine ⟨_, rfl, ?_, rfl, rfl⟩
    rw [load32_eq (m := (m.put _ _ _).put _ _ _) hFr]
    show some (readLE (writeLE (writeLE m.bytes F (T + 1) 4) _ (T + 1) 4) F 4) = _
    rw [hread]

theorem alloc_take_ok (m : Mem) (head first F T s prev next : Nat)
    (hU : m.base + m.len < U64)
    (hprev : load64 m (ADD_BYTES F 16) = some prev)
    (hnext : load64 m (ADD_BYTES F 8) = some next)
    (hF : load32 m F = some s) (hs2 : s % 2 = 0) (hs28 : 28 ≤ s)
    (hT4 : T % 4 = 0) (hfit : T ≤ s) (hroom : s = T ∨ F + T + 24 ≤ m.base + m.len)
    (hin : F + s ≤ m.base + m.len) (hlow : m.base + 16 ≤ F)
    (hh : m.inRange (ADD_BYTES head 8) 8) (hhd : ADD_BYTES head 8 + 8 ≤ F)
    (hp : prev ≠ 0 → m.inRange (ADD_BYTES prev 8) 8)
    (hn : next ≠ 0 → m.inRange (ADD_BYTES next 16) 8) :
    ∃ m1, alloc_take m head first F T = some (F, m1) ∧ load32 m1 F = some (T + 1) ∧
      m1.base = m.base ∧ m1.len = m.len := by
  have hs32 := load32_lt hF
  rw [U32_eq] at hs32
  have hT32 : T + 1 < U32 := by rw [U32_eq]; omega
  have hFr := load32_inRange hF
  have h8 := load64_inRange hnext
  have h16 := load64_inRange hprev
  have key : ∀ r : Mem × Nat, r.1.base = m.base → r.1.len = m.len →
      ∃ m1, alloc_mark r.1 head first F T r.2 = some (F, m1) ∧ load32 m1 F = some (T + 1) ∧
        m1.base = m.base ∧ m1.len = m.len := by
    intro r hb hl
    obtain ⟨m1, h1, h2, h3, h4⟩ := alloc_mark_ok r.1 head first F T r.2 (by rw [hb, hl]; exact hU)
      (inRange_congr hb hl hFr) hT4 (by rw [hb, hl]; omega) (by rw [hb]; exact hlow) hT32
      (inRange_congr hb hl hh) hhd
    exact ⟨m1, h1, h2, h3.trans hb, h4.trans hl⟩
  unfold alloc_take
  simp only [Option.bind_eq_bind]
  rw [hprev, Option.some_bind, hnext, Option.some_bind, hF, Option.some_bind]
  by_cases hst : s = T
  · rw [if_pos hst]
    obtain ⟨r, hr, hb, hl⟩ := alloc_exact_ok m F prev next h8 h16 hp hn
    rw [hr, Option.some_bind]
    exact key r hb hl
  · rw [if_neg hst]
    have hroom2 : F + T + 24 ≤ m.base + m.len := by
      rcases hroom with h | h
      · exact absurd h hst
      · exact h
    obtain ⟨r, hr, hb, hl⟩ := alloc_split_ok m F prev next T s hU hF h8 h16 (by omega)
      (by omega) hroom2 hin hp hn
    rw [hr, Option.some_bind]
    exact key r hb hl
/-- The blocks found by the walk are contiguous and their sizes add up to the
length of the walked range. -/
theorem blocksFrom_sum (fuel : Nat) (m : Mem) (a e : Nat) (bs : List Block)
    (h : blocksFrom fuel m a e = some bs) :
    a + (bs.map Block.size).sum = e := by
  induction fuel generalizing a bs with
  | zero => unfold blocksFrom at h; cases h
  | succ k ih =>
    unfold blocksFrom at h
    by_cases h1 : a = e
    · rw [if_pos h1] at h; cases h; simpa using h1
    rw [if_neg h1] at h
    by_cases h2 : e < a
    · rw [if_pos h2] at h; cases h
    rw [if_neg h2] at h
    cases hl : load32 m a with
    | none => rw [hl] at h; cases h
    | some v =>
      rw [hl] at h
      simp only at h
      by_cases h3 : v - v % 2 = 0
      · rw [if_pos h3] at h; cases h
      rw [if_neg h3] at h
      cases hr : blocksFrom k m (a + (v - v % 2)) e with
      | none => rw [hr] at h; cases h
      | some rest =>
        rw [hr] at h
        simp only at h
        cases h
        have := ih _ _ hr
        simp only [List.map_cons, List.sum_cons]
        omega

theorem blocksFrom_bounds (fuel : Nat) (m : Mem) (a e : Nat) (bs : List Block)
    (h : blocksFrom fuel m a e = some bs) :
    ∀ b ∈ bs, a ≤ b.addr ∧ b.addr + b.size ≤ e := by
  induction fuel generalizing a bs with
  | zero => unfold blocksFrom at h; cases h
  | succ k ih =>
    unfold blocksFrom at h
    by_cases h1 : a = e
    · rw [if_pos h1] at h; cases h; intro b hb; cases hb
    rw [if_neg h1] at h
    by_cases h2 : e < a
    · rw [if_pos h2] at h; cases h
    rw [if_neg h2] at h
    cases hl : load32 m a with
    | none => rw [hl] at h; cases h
    | some v =>
      rw [hl] at h
      simp only at h
      by_cases h3 : v - v % 2 = 0
      · rw [if_pos h3] at h; cases h
      rw [if_neg h3] at h
      cases hr : blocksFrom k m (a + (v - v % 2)) e with
      | none => rw [hr] at h; cases h
      | some rest =>
        rw [hr] at h
        simp only at h
        cases h
        have hrest := ih _ _ hr
        intro b hb
        rcases List.mem_cons.mp hb with hb | hb
        · subst hb
          simp only
          refine ⟨le_refl _, ?_⟩
          cases rest with
          | nil =>
            cases k with
            | zero => unfold blocksFrom at hr; cases hr
            | succ j =>
              unfold blocksFrom at hr
              by_cases h4 : a + (v - v % 2) = e
              · omega
              · rw [if_neg h4] at hr
                by_cases h5 : e < a + (v - v % 2)
                · rw [if_pos h5] at hr; cases hr
                · rw [if_neg h5] at hr
                  cases hl2 : load32 m (a + (v - v % 2)) with
                  | none => rw [hl2] at hr; cases hr
                  | some w =>
                    rw [hl2] at hr
                    simp only at hr
                    split at hr
                    · cases hr
                    · split at hr <;> cases hr
          | cons c cs =>
            have := hrest c (List.mem_cons_self _ _)
            omega
        · have := hrest b hb
          omega

theorem freeListFrom_cons (fuel : Nat) (m : Mem) (p x : Nat) (l : List Nat)
    (h : freeListFrom fuel m p = some (x :: l)) :
    p = x ∧ x ≠ 0 ∧ ∃ k nxt, fuel = k + 1 ∧ load64 m (x + 8) = some nxt ∧
      freeListFrom k m nxt = some l := by
  cases fuel with
  | zero => unfold freeListFrom at h; cases h
  | succ k =>
    unfold freeListFrom at h
    by_cases hp : p = 0
    · rw [if_pos hp] at h; cases h
    rw [if_neg hp] at h
    cases hl : load64 m (p + 8) with
    | none => rw [hl] at h; cases h
    | some nxt =>
      rw [hl] at h
      simp only at h
      cases hr : freeListFrom k m nxt with
      | none => rw [hr] at h; cases h
      | some l2 =>
        rw [hr] at h
        simp only at h
        cases h
        exact ⟨rfl, hp, k, nxt, rfl, hl, hr⟩

theorem freeListFrom_nil (fuel : Nat) (m : Mem) (p : Nat)
    (h : freeListFrom fuel m p = some []) : p = 0 := by
  cases fuel with
  | zero => unfold freeListFrom at h; cases h
  | succ k =>
    unfold freeListFrom at h
    by_cases hp : p = 0
    · exact hp
    rw [if_neg hp] at h
    cases hl : load64 m (p + 8) with
    | none => rw [hl] at h; cases h
    | some nxt =>
      rw [hl] at h
      simp only at h
      cases hr : freeListFrom k m nxt with
      | none => rw [hr] at h; cases h
      | some l2 => rw [hr] at h; cases h

theorem freeListFrom_length (fuel : Nat) (m : Mem) (p : Nat) (l : List Nat)
    (h : freeListFrom fuel m p = some l) : l.length < fuel := by
  induction l generalizing fuel p with
  | nil =>
    cases fuel with
    | zero => unfold freeListFrom at h; cases h
    | succ k => simp
  | cons x l ih =>
    obtain ⟨-, -, k, nxt, hk, -, hr⟩ := freeListFrom_cons _ _ _ _ _ h
    have := ih _ _ hr
    simp only [List.length_cons]
    omega

/-- Links of a well-linked free list stay inside the list. -/
theorem freeList_links (m : Mem) (l : List Nat) (fuel p q0 : Nat)
    (hf : freeListFrom fuel m p = some l) (hp : prevLinked m q0 l) :
    ∀ x ∈ l, x ≠ 0 ∧ ∃ q nx, load64 m (x + 16) = some q ∧ load64 m (x + 8) = some nx ∧
      (q = q0 ∨ q ∈ l) ∧ (nx = 0 ∨ nx ∈ l) := by
  induction l generalizing fuel p q0 with
  | nil => intro x hx; cases hx
  | cons y l ih =>
    obtain ⟨-, hy0, k, nxt, -, hn, hr⟩ := freeListFrom_cons _ _ _ _ _ hf
    obtain ⟨hq, hp2⟩ := hp
    intro x hx
    rcases List.mem_cons.mp hx with hx | hx
    · subst hx
      refine ⟨hy0, q0, nxt, hq, hn, Or.inl rfl, ?_⟩
      cases l with
      | nil => exact Or.inl (freeListFrom_nil _ _ _ hr)
      | cons z zs =>
        obtain ⟨hz, -⟩ := freeListFrom_cons _ _ _ _ _ hr
        right; rw [hz]; simp
    · obtain ⟨hx0, q, nx, h1, h2, h3, h4⟩ := ih k nxt y hr hp2 x hx
      refine ⟨hx0, q, nx, h1, h2, ?_, ?_⟩
      · rcases h3 with h3 | h3
        · right; rw [h3]; simp
        · right; exact List.mem_cons_of_mem _ h3
      · rcases h4 with h4 | h4
        · exact Or.inl h4
        · right; exact List.mem_cons_of_mem _ h4

theorem total_size_mod4 (A n : Nat) (h4 : 4 ∣ A) (h32 : A ∣ U32) : total_size A n % 4 = 0 := by
  unfold total_size
  simp only
  by_cases h : (n + 8) % U32 % A ≠ 0
  · rw [if_pos h]
    have hA : A ∣ (n + 8) % U32 + (A - (n + 8) % U32 % A) := by
      have hpos : 0 < A := Nat.pos_of_ne_zero (fun h0 => by
        subst h0
        have := Nat.eq_zero_of_zero_dvd h32
        rw [U32_eq] at this
        cases this)
      have hlt := Nat.mod_lt ((n + 8) % U32) hpos
      have hdm := Nat.div_add_mod ((n + 8) % U32) A
      refine ⟨(n + 8) % U32 / A + 1, ?_⟩
      rw [Nat.mul_add, Nat.mul_one]
      omega
    have h1 : A ∣ ((n + 8) % U32 + (A - (n + 8) % U32 % A)) % U32 :=
      (Nat.dvd_mod_iff h32).mpr hA
    exact Nat.mod_eq_zero_of_dvd (Nat.dvd_trans h4 h1)
  · rw [if_neg h]
    have h0 : (n + 8) % U32 % A = 0 := by
      by_contra hc; exact h hc
    exact Nat.mod_eq_zero_of_dvd (Nat.dvd_trans h4 (Nat.dvd_of_mod_eq_zero h0))

theorem freeListFrom_ne_zero (fuel : Nat) (m : Mem) (p x : Nat) (l : List Nat)
    (h : freeListFrom fuel m p = some (x :: l)) : p ≠ 0 := by
  obtain ⟨h1, h2, -⟩ := freeListFrom_cons _ _ _ _ _ h
  rw [h1]; exact h2

theorem alloc_loop_skip (m : Mem) (head first T F s : Nat) (post : List Nat)
    (hU : m.base + m.len < U64) (hF : load32 m F = some s) (hfit : T ≤ s) :
    ∀ (pre : List Nat) (k cur fuel : Nat), freeListFrom k m cur = some (pre ++ F :: post) →
      (∀ p ∈ pre, ∃ sp, load32 m p = some sp ∧ sp < T) → pre.length < fuel →
      alloc_loop fuel m head first cur T = alloc_take m head first F T := by
  intro pre
  induction pre with
  | nil =>
    intro k cur fuel hfl _ hlen
    obtain ⟨hc, -, -⟩ := freeListFrom_cons _ _ _ _ _ hfl
    subst hc
    cases fuel with
    | zero => cases hlen
    | succ f =>
      unfold alloc_loop
      simp only [Option.bind_eq_bind]
      rw [hF, Option.some_bind, if_pos hfit]
  | cons p pre ih =>
    intro k cur fuel hfl hsmall hlen
    obtain ⟨hc, -, k2, nxt, -, hn, hr⟩ := freeListFrom_cons _ _ _ _ _ hfl
    subst hc
    obtain ⟨sp, hsp, hlt⟩ := hsmall cur (List.mem_cons_self _ _)
    have hnz : nxt ≠ 0 := by
      cases pre with
      | nil => exact freeListFrom_ne_zero _ _ _ _ _ hr
      | cons y ys => exact freeListFrom_ne_zero _ _ _ _ _ hr
    have hadd : ADD_BYTES cur 8 = cur + 8 := by
      have := (load64_inRange hn).2.2
      unfold ADD_BYTES
      rw [U64_eq] at hU ⊢
      omega
    cases fuel with
    | zero => cases hlen
    | succ f =>
      unfold alloc_loop
      simp only [Option.bind_eq_bind]
      rw [hsp, Option.some_bind, if_neg (by omega), hadd, hn, Option.some_bind, if_pos hnz]
      exact ih k2 nxt f hr (fun q hq => hsmall q (List.mem_cons_of_mem _ hq))
        (by simp only [List.length_cons] at hlen; omega)

theorem mem_freeAddrs {bs : List Block} {p : Nat} (h : p ∈ freeAddrs bs) :
    ∃ b ∈ bs, b.alloc = false ∧ b.addr = p := by
  unfold freeAddrs at h
  obtain ⟨b, hb, hp⟩ := List.mem_map.mp h
  obtain ⟨hb1, hb2⟩ := List.mem_filter.mp hb
  refine ⟨b, hb1, ?_, hp⟩
  cases hba : b.alloc with
  | false => rfl
  | true => rw [hba] at hb2; cases hb2

/-- What well-formedness gives for a member of the free list. -/
theorem free_block_facts (m : Mem) (heapptr : Nat) (bs : List Block) (fl : List Nat)
    (hwf : WellFormedWith m heapptr bs fl) (p : Nat) (hp : p ∈ fl) :
    ∃ sp, load32 m p = some sp ∧ sp % 2 = 0 ∧ 28 ≤ sp ∧ heapptr + 16 ≤ p ∧
      p + sp ≤ heapptr + m.len := by
  obtain ⟨-, -, -, -, hb, htags, -, -, hperm⟩ := hwf
  obtain ⟨b, hbm, hfree, haddr⟩ := mem_freeAddrs ((hperm.mem_iff).mp hp)
  obtain ⟨h1, -, h3, h4⟩ := htags b hbm
  obtain ⟨h5, h6⟩ := blocksFrom_bounds _ _ _ _ _ hb b hbm
  rw [hfree] at h1 h4
  simp only [Nat.add_zero, Bool.false_eq_true, if_false] at h1 h4
  rw [haddr] at h1 h5 h6
  exact ⟨b.size, h1, h3, h4, h5, h6⟩

theorem alloc_loop_exhausted (m : Mem) (head first T : Nat) (hU : m.base + m.len < U64) :
    ∀ (l : List Nat) (k cur fuel : Nat), l ≠ [] → freeListFrom k m cur = some l →
      (∀ p ∈ l, ∃ sp, load32 m p = some sp ∧ sp < T) → l.length ≤ fuel →
      alloc_loop fuel m head first cur T = some (0, m) := by
  intro l
  induction l with
  | nil => intro k cur fuel hne; exact absurd rfl hne
  | cons x l ih =>
    intro k cur fuel _ hfl hsmall hlen
    obtain ⟨hc, -, k2, nxt, -, hn, hr⟩ := freeListFrom_cons _ _ _ _ _ hfl
    subst hc
    obtain ⟨sp, hsp, hlt⟩ := hsmall cur (List.mem_cons_self _ _)
    have hadd : ADD_BYTES cur 8 = cur + 8 := by
      have := (load64_inRange hn).2.2
      unfold ADD_BYTES
      rw [U64_eq] at hU ⊢
      omega
    cases fuel with
    | zero => simp only [List.length_cons] at hlen; omega
    | succ f =>
      unfold alloc_loop
      simp only [Option.bind_eq_bind]
      rw [hsp, Option.some_bind, if_neg (by omega), hadd, hn, Option.some_bind]
      cases l with
      | nil =>
        have hz : nxt = 0 := freeListFrom_nil _ _ _ hr
        rw [if_neg (by rw [hz]; exact fun h => h rfl)]
      | cons y ys =>
        rw [if_pos (freeListFrom_ne_zero _ _ _ _ _ hr)]
        exact ih k2 nxt f (by simp) hr (fun q hq => hsmall q (List.mem_cons_of_mem _ hq))
          (by simp only [List.length_cons] at hlen ⊢; omega)

/-- Exhaustion with a non-empty free list: on a well-formed heap whose free
list is not empty and has no block of size `total_size` or more, `hl_alloc`
returns null and leaves the memory as it is. -/
theorem alloc_exhausted_nonempty (A : Nat) (m : Mem) (heapptr block_size : Nat) (fl : List Nat)
    (hwf : WellFormed m heapptr) (hfl : freeList m heapptr = some fl) (hne : fl ≠ [])
    (hsmall : ∀ p ∈ fl, ∀ sp, load32 m p = some sp → sp < total_size A block_size) :
    hl_alloc A m heapptr block_size = some (0, m) := by
  obtain ⟨bs, fl2, hw⟩ := hwf
  have hw' := hw
  obtain ⟨-, -, hU, hsize, -, -, hfl2, -, -⟩ := hw
  rw [hfl] at hfl2
  have hfleq : fl = fl2 := Option.some.inj hfl2
  subst hfleq
  unfold hl_alloc
  by_cases hv : block_size = 0 ∨ heapptr = 0
  · rw [if_pos hv]
  rw [if_neg hv]
  simp only [Option.bind_eq_bind]
  rw [hsize, Option.some_bind]
  by_cases hbig : total_size A block_size > m.len
  · rw [if_pos hbig]
  rw [if_neg hbig]
  unfold freeList at hfl
  cases hfirst : load64 m (heapptr + 8) with
  | none => rw [hfirst] at hfl; cases hfl
  | some first =>
    rw [hfirst] at hfl
    simp only at hfl
    have ah : ADD_BYTES heapptr 8 = heapptr + 8 := by
      have := (load64_inRange hfirst).2.2
      unfold ADD_BYTES
      rw [U64_eq] at hU ⊢
      omega
    rw [ah, hfirst, Option.some_bind]
    refine alloc_loop_exhausted m heapptr first _ hU fl _ first _ hne hfl ?_ ?_
    · intro p hp
      obtain ⟨sp, h1, -⟩ := free_block_facts m heapptr bs _ hw' p hp
      exact ⟨sp, h1, hsmall p hp sp h1⟩
    · have := freeListFrom_length _ _ _ _ hfl
      omega

/-! ## hl_alloc returning null -/

theorem alloc_mark_fst (m : Mem) (head first header total f_free : Nat) (r : Nat × Mem)
    (h : alloc_mark m head first header total f_free = some r) : r.1 = header := by
  unfold alloc_mark at h
  simp only [Option.bind_eq_bind, Option.bind_eq_some] at h
  obtain ⟨m1, -, m2, -, m3, -, h⟩ := h
  cases h
  rfl

theorem alloc_take_fst (m : Mem) (head first header total : Nat) (r : Nat × Mem)
    (h : alloc_take m head first header total = some r) : r.1 = header := by
  unfold alloc_take at h
  simp only [Option.bind_eq_bind, Option.bind_eq_some] at h
  obtain ⟨prev, -, next, -, hs, -, x, -, h⟩ := h
  exact alloc_mark_fst _ _ _ _ _ _ _ h

theorem alloc_loop_result (fuel : Nat) (m : Mem) (head first header total : Nat)
    (r : Nat × Mem) (h : alloc_loop fuel m head first header total = some r) :
    (r.1 = 0 ∧ r.2 = m) ∨ m.inRange r.1 4 := by
  induction fuel generalizing header with
  | zero => unfold alloc_loop at h; cases h
  | succ k ih =>
    unfold alloc_loop at h
    cases hl : load32 m header with
    | none => rw [hl] at h; cases h
    | some hs =>
      rw [hl] at h
      simp only [Option.bind_eq_bind, Option.some_bind] at h
      by_cases hfit : hs ≥ total
      · rw [if_pos hfit] at h
        right
        rw [alloc_take_fst _ _ _ _ _ _ h]
        exact load32_inRange hl
      · rw [if_neg hfit] at h
        cases hn : load64 m (ADD_BYTES header 8) with
        | none => rw [hn] at h; cases h
        | some nxt =>
          rw [hn] at h
          simp only [Option.some_bind] at h
          by_cases hz : nxt ≠ 0
          · rw [if_pos hz] at h
            exact ih _ h
          · rw [if_neg hz] at h
            cases h
            exact Or.inl ⟨rfl, rfl⟩

theorem hl_alloc_result (A : Nat) (m : Mem) (heapptr block_size : Nat) (r : Nat × Mem)
    (h : hl_alloc A m heapptr block_size = some r) :
    (r.1 = 0 ∧ r.2 = m) ∨ m.inRange r.1 4 := by
  unfold hl_alloc at h
  by_cases hv : block_size = 0 ∨ heapptr = 0
  · rw [if_pos hv] at h; cases h; exact Or.inl ⟨rfl, rfl⟩
  rw [if_neg hv] at h
  cases hl : load32 m heapptr with
  | none => rw [hl] at h; cases h
  | some hsz =>
    rw [hl] at h
    simp only [Option.bind_eq_bind, Option.some_bind] at h
    by_cases hbig : total_size A block_size > hsz
    · rw [if_pos hbig] at h; cases h; exact Or.inl ⟨rfl, rfl⟩
    rw [if_neg hbig] at h
    cases hf : load64 m (ADD_BYTES heapptr 8) with
    | none => rw [hf] at h; cases h
    | some first =>
      rw [hf] at h
      simp only [Option.some_bind] at h
      exact alloc_loop_result _ _ _ _ _ _ _ h

/-! ## A successful hl_alloc, read backwards -/

theorem store32_some {m m1 : Mem} {a v : Nat} (h : store32 m a v = some m1) :
    m.inRange a 4 ∧ m1 = m.put a v 4 := by
  unfold store32 at h
  by_cases hr : m.inRange a 4
  · rw [if_pos hr] at h; exact ⟨hr, (Option.some.inj h).symm⟩
  · rw [if_neg hr] at h; cases h

theorem store64_some {m m1 : Mem} {a v : Nat} (h : store64 m a v = some m1) :
    m.inRange a 8 ∧ m1 = m.put a v 8 := by
  unfold store64 at h
  by_cases hr : m.inRange a 8
  · rw [if_pos hr] at h; exact ⟨hr, (Option.some.inj h).symm⟩
  · rw [if_neg hr] at h; cases h

theorem lor_one_of_even (T : Nat) (h : T % 2 = 0) : T ||| 1 = T + 1 := by
  apply Nat.eq_of_testBit_eq
  intro i
  rw [Nat.testBit_or]
  cases i with
  | zero =>
    simp only [Nat.testBit_zero]
    have h1 : (T + 1) % 2 = 1 := by omega
    simp [h, h1]
  | succ j =>
    rw [Nat.testBit_succ, Nat.testBit_succ, Nat.testBit_succ]
    have h1 : (T + 1) / 2 = T / 2 := by omega
    rw [h1]
    simp

/-- Without wrap-around `total_size` is the least multiple of `A` that is at
least `block_size + 8`. -/
theorem total_size_least (A n k : Nat) (hA : 0 < A) (hk1 : A ∣ k) (hk2 : n + 8 ≤ k)
    (hk3 : k < U32) :
    A ∣ total_size A n ∧ n + 8 ≤ total_size A n ∧ total_size A n ≤ k := by
  have ht : (n + 8) % U32 = n + 8 := Nat.mod_eq_of_lt (by omega)
  obtain ⟨j, hj⟩ := hk1
  have hdm := Nat.div_add_mod (n + 8) A
  have hlt := Nat.mod_lt (n + 8) hA
  unfold total_size
  simp only
  rw [ht]
  by_cases h : (n + 8) % A ≠ 0
  · rw [if_pos h]
    have hq : (n + 8) / A < j := by
      by_contra hc
      have : A * j ≤ A * ((n + 8) / A) := Nat.mul_le_mul_left A (by omega)
      omega
    have hle : A * ((n + 8) / A + 1) ≤ A * j := Nat.mul_le_mul_left A hq
    rw [Nat.mul_add, Nat.mul_one] at hle
    have hval : n + 8 + (A - (n + 8) % A) = A * ((n + 8) / A) + A := by omega
    rw [Nat.mod_eq_of_lt (by omega), hval]
    refine ⟨⟨(n + 8) / A + 1, by rw [Nat.mul_add, Nat.mul_one]⟩, by omega, by omega⟩
  · rw [if_neg h]
    have h0 : (n + 8) % A = 0 := by
      by_contra hc; exact h hc
    exact ⟨Nat.dvd_of_mod_eq_zero h0, le_refl _, hk2⟩

theorem alloc_mark_tags (m : Mem) (head first F T ff p : Nat) (m1 : Mem)
    (h : alloc_mark m head first F T ff = some (p, m1))
    (hT8 : 8 ≤ T) (hT32 : T + 1 < U32) (hFT : F + T < U64) (hhd : ADD_BYTES head 8 + 8 ≤ F) :
    load32 m1 F = some (T + 1) ∧ load32 m1 (F + T - 4) = some (T + 1) := by
  have hv : (T + 1) % U32 = T + 1 := Nat.mod_eq_of_lt hT32
  have h256 : (256 : Nat) ^ 4 = U32 := by decide
  have hfa : ADD_BYTES F (sub64 T 4) = F + T - 4 := by
    unfold ADD_BYTES sub64
    rw [U64_eq] at hFT ⊢
    omega
  unfold alloc_mark at h
  simp only [Option.bind_eq_bind, Option.bind_eq_some] at h
  obtain ⟨ma, h1, mb, h2, mc, h3, h4⟩ := h
  rw [hv] at h1 h2
  rw [hfa] at h2
  obtain ⟨r1, e1⟩ := store32_some h1
  obtain ⟨r2, e2⟩ := store32_some h2
  have hm1 : m1 = mc := by
    have := Option.some.inj h4
    exact (congrArg Prod.snd this).symm
  subst hm1
  subst e1
  subst e2
  have r2' : m.inRange (F + T - 4) 4 := r2
  by_cases hf : first = F
  · rw [if_pos hf] at h3
    obtain ⟨r3, e3⟩ := store64_some h3
    subst e3
    constructor
    · rw [load32_eq (m := ((m.put _ _ _).put _ _ _).put _ _ _) r1]
      show some (readLE (writeLE (writeLE (writeLE m.bytes F (T + 1) 4) _ (T + 1) 4) _ _ 8) F 4) = _
      rw [readLE_writeLE_disj _ _ _ _ _ _ (Or.inr hhd),
        readLE_writeLE_disj _ _ _ _ _ _ (by omega), readLE_writeLE_same, h256, hv]
    · rw [load32_eq (m := ((m.put _ _ _).put _ _ _).put _ _ _) r2']
      show some (readLE (writeLE (writeLE (writeLE m.bytes F (T + 1) 4) _ (T + 1) 4) _ _ 8)
        (F + T - 4) 4) = _
      rw [readLE_writeLE_disj _ _ _ _ _ _ (by omega), readLE_writeLE_same, h256, hv]
  · rw [if_neg hf] at h3
    have e3 := Option.some.inj h3
    subst e3
    constructor
    · rw [load32_eq (m := (m.put _ _ _).put _ _ _) r1]
      show some (readLE (writeLE (writeLE m.bytes F (T + 1) 4) _ (T + 1) 4) F 4) = _
      rw [readLE_writeLE_disj _ _ _ _ _ _ (by omega), readLE_writeLE_same, h256, hv]
    · rw [load32_eq (m := (m.put _ _ _).put _ _ _) r2']
      show some (readLE (writeLE (writeLE m.bytes F (T + 1) 4) _ (T + 1) 4) (F + T - 4) 4) = _
      rw [readLE_writeLE_same, h256, hv]

theorem alloc_exact_shape (m : Mem) (F prev next : Nat) (r : Mem × Nat)
    (h : alloc_exact m F prev next = some r) : r.1.base = m.base ∧ r.1.len = m.len := by
  unfold alloc_exact at h
  simp only [Option.bind_eq_bind, Option.bind_eq_some] at h
  obtain ⟨ma, h1, h2⟩ := h
  have ha : ma.base = m.base ∧ ma.len = m.len := by
    by_cases hp : prev ≠ 0
    · rw [if_pos hp] at h1
      simp only [Option.bind_eq_some] at h1
      obtain ⟨nf, -, h1⟩ := h1
      obtain ⟨-, e⟩ := store64_some h1
      subst e
      exact ⟨rfl, rfl⟩
    · rw [if_neg hp] at h1
      have e := Option.some.inj h1
      subst e
      exact ⟨rfl, rfl⟩
  by_cases hn : next ≠ 0
  · rw [if_pos hn] at h2
    simp only [Option.bind_eq_some] at h2
    obtain ⟨pf, -, mb, h2, h3⟩ := h2
    obtain ⟨-, e⟩ := store64_some h2
    subst e
    have e3 := Option.some.inj h3
    subst e3
    exact ha
  · rw [if_neg hn] at h2
    have e3 := Option.some.inj h2
    subst e3
    exact ha

theorem alloc_split_shape (m : Mem) (F prev next T : Nat) (r : Mem × Nat)
    (h : alloc_split m F prev next T = some r) : r.1.base = m.base ∧ r.1.len = m.len := by
  unfold alloc_split at h
  simp only [Option.bind_eq_bind, Option.bind_eq_some] at h
  obtain ⟨hs1, -, ma, h1, nf, -, mb, h2, pf, -, mc, h3, hs2, -, hs3, -, md, h4, me, h5, mf, h6,
    h7⟩ := h
  obtain ⟨-, e1⟩ := store32_some h1
  obtain ⟨-, e2⟩ := store64_some h2
  obtain ⟨-, e3⟩ := store64_some h3
  obtain ⟨-, e4⟩ := store32_some h4
  have a5 : me.base = md.base ∧ me.len = md.len := by
    by_cases hp : prev ≠ 0
    · rw [if_pos hp] at h5
      obtain ⟨-, e⟩ := store64_some h5
      subst e
      exact ⟨rfl, rfl⟩
    · rw [if_neg hp] at h5
      have e := Option.some.inj h5
      subst e
      exact ⟨rfl, rfl⟩
  have a6 : mf.base = me.base ∧ mf.len = me.len := by
    by_cases hn : next ≠ 0
    · rw [if_pos hn] at h6
      obtain ⟨-, e⟩ := store64_some h6
      subst e
      exact ⟨rfl, rfl⟩
    · rw [if_neg hn] at h6
      have e := Option.some.inj h6
      subst e
      exact ⟨rfl, rfl⟩
  have e7 := Option.some.inj h7
  subst e7
  subst e4
  subst e3
  subst e2
  subst e1
  exact ⟨a6.1.trans a5.1, a6.2.trans a5.2⟩

theorem first_fit_split (m : Mem) (T : Nat) (fl : List Nat)
    (hsz : ∀ p ∈ fl, ∃ sp, load32 m p = some sp) :
    (∀ p ∈ fl, ∀ sp, load32 m p = some sp → sp < T) ∨
    ∃ pre F post s, fl = pre ++ F :: post ∧ load32 m F = some s ∧ T ≤ s ∧
      ∀ p ∈ pre, ∀ sp, load32 m p = some sp → sp < T := by
  induction fl with
  | nil => left; intro p hp; cases hp
  | cons x l ih =>
    obtain ⟨sx, hsx⟩ := hsz x (List.mem_cons_self _ _)
    by_cases hx : T ≤ sx
    · right
      exact ⟨[], x, l, sx, rfl, hsx, hx, fun p hp => by cases hp⟩
    · have hxs : ∀ sp, load32 m x = some sp → sp < T := by
        intro sp h
        rw [hsx] at h
        have := Option.some.inj h
        omega
      rcases ih (fun p hp => hsz p (List.mem_cons_of_mem _ hp)) with h | ⟨pre, F, post, s, h1, h2, h3, h4⟩
      · left
        intro p hp
        rcases List.mem_cons.mp hp with hp | hp
        · rw [hp]; exact hxs
        · exact h p hp
      · right
        refine ⟨x :: pre, F, post, s, by rw [h1]; rfl, h2, h3, ?_⟩
        intro p hp
        rcases List.mem_cons.mp hp with hp | hp
        · rw [hp]; exact hxs
        · exact h4 p hp

/-! ## The split of a free block -/

theorem store32_step (m : Mem) (a v : Nat) (h : m.inRange a 4) :
    ∃ m1, store32 m a v = some m1 ∧ m1.base = m.base ∧ m1.len = m.len ∧
      m1.bytes = writeLE m.bytes a v 4 :=
  ⟨m.put a v 4, store32_eq v h, rfl, rfl, rfl⟩

theorem store64_step (m : Mem) (a v : Nat) (h : m.inRange a 8) :
    ∃ m1, store64 m a v = some m1 ∧ m1.base = m.base ∧ m1.len = m.len ∧
      m1.bytes = writeLE m.bytes a v 8 :=
  ⟨m.put a v 8, store64_eq v h, rfl, rfl, rfl⟩

theorem load32_of_bytes {m : Mem} {a v : Nat} (hr : m.inRange a 4) (h : readLE m.bytes a 4 = v) :
    load32 m a = some v := by
  rw [load32_eq hr, h]

theorem load64_of_bytes {m : Mem} {a v : Nat} (hr : m.inRange a 8) (h : readLE m.bytes a 8 = v) :
    load64 m a = some v := by
  rw [load64_eq hr, h]

theorem bytes_of_load32 {m : Mem} {a v : Nat} (h : load32 m a = some v) :
    readLE m.bytes a 4 = v := by
  rw [load32_eq (load32_inRange h)] at h
  exact Option.some.inj h

theorem bytes_of_load64 {m : Mem} {a v : Nat} (h : load64 m a = some v) :
    readLE m.bytes a 8 = v := by
  rw [load64_eq (load64_inRange h)] at h
  exact Option.some.inj h

theorem inRange_heapPart {m : Mem} {n a k : Nat} (hn : n ≤ m.len)
    (h : (m.heapPart n).inRange a k) : m.inRange a k := by
  obtain ⟨h0, h1, h2⟩ := h
  have h1' : m.base ≤ a := h1
  have h2' : a + k ≤ m.base + n := h2
  exact ⟨h0, h1', by omega⟩

theorem load32_heapPart {m : Mem} {n a v : Nat} (hn : n ≤ m.len)
    (h : load32 (m.heapPart n) a = some v) : load32 m a = some v := by
  have hb : readLE (m.heapPart n).bytes a 4 = v := bytes_of_load32 h
  exact load32_of_bytes (inRange_heapPart hn (load32_inRange h)) hb

theorem load64_heapPart {m : Mem} {n a v : Nat} (hn : n ≤ m.len)
    (h : load64 (m.heapPart n) a = some v) : load64 m a = some v := by
  have hb : readLE (m.heapPart n).bytes a 8 = v := bytes_of_load64 h
  exact load64_of_bytes (inRange_heapPart hn (load64_inRange h)) hb

theorem freeListFrom_heapPart {m : Mem} {n : Nat} (hn : n ≤ m.len) (fuel : Nat) (l : List Nat)
    (p : Nat) (h : freeListFrom fuel (m.heapPart n) p = some l) :
    freeListFrom fuel m p = some l := by
  induction l generalizing fuel p with
  | nil =>
    have hp := freeListFrom_nil _ _ _ h
    subst hp
    cases fuel with
    | zero => unfold freeListFrom at h; cases h
    | succ k => unfold freeListFrom; rw [if_pos rfl]
  | cons x l ih =>
    obtain ⟨hpx, hx0, k, nxt, hk, hl, hr⟩ := freeListFrom_cons _ _ _ _ _ h
    subst hpx
    subst hk
    unfold freeListFrom
    rw [if_neg hx0, load64_heapPart hn hl]
    simp only
    rw [ih k nxt hr]

/-! ## hl_init unfolded -/

theorem hl_init_eq (A : Nat) (m : Mem) (heapptr heap_size : Nat) :
    hl_init A m heapptr heap_size =
      if heapptr = 0 then some (0, m)
      else
        (store32 m (init_heap A heapptr) heap_size).bind (fun m1 =>
          (store64 m1 (ADD_BYTES (init_heap A heapptr) 8) (ADD_BYTES (init_heap A heapptr) 16)).bind
            (fun m2 =>
              if heap_size < 16 then some (0, m2)
              else
                (load64 m2 (ADD_BYTES (init_heap A heapptr) 8)).bind (fun root =>
                  (store32 m2 root (sub64 heap_size 16)).bind (fun m3 =>
                    (store64 m3 (ADD_BYTES root 8) 0).bind (fun m4 =>
                      (store64 m4 (ADD_BYTES root 16) 0).bind (fun m5 =>
                        (load32 m5 root).bind (fun rs =>
                          (store32 m5 (ADD_BYTES root (sub64 rs 4)) heap_size).bind (fun m6 =>
                            some (1, m6))))))))) := by
  rfl

/-! ## The claims -/

set_option maxRecDepth 100000 in
/-- C1.  The alloc/release round trip of the specification does not restore the
heap.  With `ALIGNMENT` 8 on a zero-filled region of 1000 bytes at address 4096:
`hl_init` returns 1 and three `hl_alloc` calls of 100 bytes return 4112, 4224,
4336; after `hl_release` of the second, the first and the third reference, for
every indeterminate value of `is_alloc_before` in each call, either a call does
not return or the heap is not a single free block of 984 bytes at 4112.  Already
one allocation followed by its release leaves `first_free` at 4224 and a block
of 112 bytes at 4112. -/
theorem round_trip_not_restored :
    Returns (hl_init 8 region1000 4096 1000) (fun r => r.1 = 1) ∧
    Returns threeAllocs (fun s => s.1 = 4112 ∧ s.2.1 = 4224 ∧ s.2.2.1 = 4336) ∧
    (∀ u1 u2 u3 : Int,
      ¬ Returns (roundTrip u1 u2 u3) (fun m => SingleFreeBlock m 4096 1000)) ∧
    (∀ u : Int,
      Returns (allocRelease u)
        (fun m => load64 m (4096 + 8) = some 4224 ∧ load32 m 4112 = some 112 ∧
          ¬ SingleFreeBlock m 4096 1000)) := by
  refine ⟨by decide!, by decide!, ?_, ?_⟩
  · intro u1 u2 u3
    have key : ∀ a ∈ [(0 : Int), 1, 2], ∀ b ∈ [(0 : Int), 1, 2], ∀ c ∈ [(0 : Int), 1, 2],
        ¬ Returns (roundTrip a b c) (fun m => SingleFreeBlock m 4096 1000) := by decide!
    have h := key _ (uclass_mem u1) _ (uclass_mem u2) _ (uclass_mem u3)
    unfold roundTrip at h ⊢
    simp only [hl_release_uclass _ _ _ u1, hl_release_uclass _ _ _ u2,
      hl_release_uclass _ _ _ u3]
    exact h
  · intro u
    have key : ∀ v ∈ [(0 : Int), 1, 2],
        Returns (allocRelease v)
          (fun m => load64 m (4096 + 8) = some 4224 ∧ load32 m 4112 = some 112 ∧
            ¬ SingleFreeBlock m 4096 1000) := by decide!
    have h := key _ (uclass_mem u)
    unfold allocRelease at h ⊢
    simp only [hl_release_uclass _ _ _ u]
    exact h

set_option maxRecDepth 100000 in
/-- C2.  The tiling invariant is not preserved by `hl_alloc` and `hl_resize`.  On the
heap of 1000 bytes at 4096 with `ALIGNMENT` 8: (a) `hl_alloc` of 4294967287
bytes computes `total_size` 0, returns 4112 and leaves the leading size field 1
at 4112, a block of size 0; (b) after `hl_alloc` of 100 bytes, `hl_resize` of
that block to 101 bytes returns 4228 and the copy of line 351 has overwritten
the leading size field of the free block at 4336.  In both states the walk by
leading size fields does not tile the region. -/
theorem tiling_not_preserved :
    Returns (hl_init 8 region1000 4096 1000) (fun r => r.1 = 1 ∧ Tiles r.2 4096 ∧
      Returns (hl_alloc 8 r.2 4096 4294967287) (fun a =>
        a.1 = 4112 ∧ load32 a.2 4112 = some 1 ∧ ¬ Tiles a.2 4096)) ∧
    Returns oneAlloc (fun a => a.1 = 4112 ∧ Tiles a.2 4096) ∧
    (∀ u : Int, Returns (allocResize 101 u) (fun q =>
        q.1 = 4228 ∧ load32 q.2 4336 = some 113 ∧ load32 q.2 4448 = some 0 ∧
        ¬ Tiles q.2 4096)) := by
  refine ⟨by decide!, by decide!, ?_⟩
  intro u
  have key : ∀ v ∈ [(0 : Int), 1, 2], Returns (allocResize 101 v) (fun q =>
      q.1 = 4228 ∧ load32 q.2 4336 = some 113 ∧ load32 q.2 4448 = some 0 ∧
      ¬ Tiles q.2 4096) := by decide!
  have h := key _ (uclass_mem u)
  unfold allocResize at h ⊢
  simp only [hl_resize_uclass _ _ _ _ _ u]
  exact h

set_option maxRecDepth 100000 in
/-- C3.  The free-list invariant fails after `hl_init` and is not preserved by
`hl_alloc` and `hl_release`.  On the region of 1000 bytes at 4096: `hl_init`
returns 1, the only block is the free block at 4112 with leading size field
984, and line 62 has stored 1000, the whole heap size, in its trailing size
field at 5092.  After `hl_alloc` of 100 bytes the heap is well formed; from
there `hl_alloc` of 8 bytes leaves the free block at 4240 with `prev_free` 856,
and `hl_release` of the allocated block leaves the block at 4112 free, with
trailing size field 113, and outside the free list.  None of the three
states is well formed. -/
theorem free_list_invariant_not_kept :
    Returns (hl_init 8 region1000 4096 1000) (fun r =>
      r.1 = 1 ∧ heapBlocks r.2 4096 = some [⟨4112, 984, false⟩] ∧
      freeList r.2 4096 = some [4112] ∧
      load32 r.2 4112 = some 984 ∧ load32 r.2 (4112 + 984 - 4) = some 1000 ∧
      ¬ WellFormed r.2 4096) ∧
    Returns oneAlloc (fun a => a.1 = 4112 ∧ WellFormed a.2 4096 ∧
      Returns (hl_alloc 8 a.2 4096 8) (fun b =>
        b.1 = 4224 ∧ freeList b.2 4096 = some [4240] ∧
        load64 b.2 (4240 + 16) = some 856 ∧ ¬ WellFormed b.2 4096)) ∧
    (∀ u : Int, Returns (allocRelease u) (fun m =>
      heapBlocks m 4096 = some [⟨4112, 112, false⟩, ⟨4224, 872, false⟩] ∧
      freeList m 4096 = some [4224] ∧ load32 m (4112 + 112 - 4) = some 113 ∧
      ¬ WellFormed m 4096)) := by
  refine ⟨by decide!, by decide!, ?_⟩
  intro u
  have key : ∀ v ∈ [(0 : Int), 1, 2], Returns (allocRelease v) (fun m =>
      heapBlocks m 4096 = some [⟨4112, 112, false⟩, ⟨4224, 872, false⟩] ∧
      freeList m 4096 = some [4224] ∧ load32 m (4112 + 112 - 4) = some 113 ∧
      ¬ WellFormed m 4096) := by decide!
  have h := key _ (uclass_mem u)
  unfold allocRelease at h ⊢
  simp only [hl_release_uclass _ _ _ u]
  exact h

set_option maxRecDepth 100000 in
/-- C4.  `hl_alloc` returns the address of the leading size field
itself (line 140), not the address 4 bytes past it: on the heap of 1000 bytes
at 4096, the allocated block is the block at 4112, its leading size field 113
is read at the returned reference 4112, and 100 bytes written by the caller
at the returned reference replace that size field. -/
theorem alloc_returns_size_field_address :
    Returns oneAlloc (fun a =>
      a.1 = 4112 ∧ a.1 ≠ 4112 + 4 ∧
      heapBlocks a.2 4096 = some [⟨4112, 112, true⟩, ⟨4224, 872, false⟩] ∧
      load32 a.2 a.1 = some 113 ∧
      Returns (write_bytes a.2 a.1 (List.replicate 100 170)) (fun m =>
        load32 m 4112 = some 2863311530)) := by
  decide!

set_option maxRecDepth 100000 in
/-- C5.  The size computation of line 78 wraps: for the request
4294967292 `total_size` is 8, and on the heap of 1000 bytes at 4096 `hl_alloc`
returns the reference 4112 to a block of recorded size 8, less than the
requested size plus the two size fields. -/
theorem alloc_size_wraps :
    total_size 8 4294967292 = 8 ∧
    Returns (hl_init 8 region1000 4096 1000) (fun r =>
      Returns (hl_alloc 8 r.2 4096 4294967292) (fun a =>
        a.1 = 4112 ∧ load32 a.2 4112 = some 9 ∧
        ¬ (4294967292 + 2 * 4 ≤ 9 - 9 % 2))) := by
  decide!

set_option maxRecDepth 100000 in
/-- C6.  With an empty free list the do-while loop of line 90
reads `header->size` through the null `first_free`.  On the heap of 1000 bytes
at 4096, `hl_alloc` of 976 bytes takes the whole free block (exact fit) and
returns 4112; the memory is well formed, `first_free` is null and the free
list is empty; a following `hl_alloc` of 1 byte does not return. -/
theorem alloc_on_empty_free_list_faults :
    Returns (hl_init 8 region1000 4096 1000) (fun r =>
      Returns (hl_alloc 8 r.2 4096 976) (fun a =>
        a.1 = 4112 ∧ WellFormed a.2 4096 ∧
        load64 a.2 (4096 + 8) = some 0 ∧ freeList a.2 4096 = some [] ∧
        Faults (hl_alloc 8 a.2 4096 1))) := by
  decide!

/-- C7.  First fit.  Let the heap be the first `n` bytes of the caller's object
`m` (`n` is the length of the object when the object is exactly the heap) and
well formed, `ALIGNMENT` a multiple of 4 that divides 2^32, the free list
`pre ++ F :: post`, every block of `pre` smaller than `total_size`, and the
size `s` of `F` at least `total_size`, so that `F` is the earliest fitting
block in list order.  Then every result that `hl_alloc` returns is the
address `F`; and when `F` is an exact fit or the 24-byte header of the tail at
`F + total_size` lies inside the object, `hl_alloc` returns `F`, which is not
null, and the leading size field at `F` holds `total_size + 1`. -/
theorem first_fit_of_wellFormed (A : Nat) (m : Mem) (n heapptr block_size : Nat)
    (pre post : List Nat) (F s : Nat)
    (hA4 : 4 ∣ A) (hA32 : A ∣ U32)
    (hn : n ≤ m.len) (hU : m.base + m.len < U64)
    (hwf : WellFormed (m.heapPart n) heapptr)
    (hfl : freeList (m.heapPart n) heapptr = some (pre ++ F :: post))
    (hbs : 0 < block_size)
    (hpre : ∀ p ∈ pre, ∀ sp, load32 m p = some sp → sp < total_size A block_size)
    (hF : load32 m F = some s) (hfit : total_size A block_size ≤ s) :
    (∀ r, hl_alloc A m heapptr block_size = some r → r.1 = F) ∧
    (s = total_size A block_size ∨ F + total_size A block_size + 24 ≤ m.base + m.len →
      ∃ m1, hl_alloc A m heapptr block_size = some (F, m1) ∧ F ≠ 0 ∧
        load32 m1 F = some (total_size A block_size + 1)) := by
  obtain ⟨bs, fl, hw⟩ := hwf
  have hw' := hw
  obtain ⟨hbase, hne, -, hsize, -, -, hfl2, hprev, -⟩ := hw
  have hbase' : heapptr = m.base := hbase
  have hsize' : load32 m heapptr = some n := load32_heapPart hn hsize
  rw [hfl] at hfl2
  have hfleq : fl = pre ++ F :: post := (Option.some.inj hfl2).symm
  subst hfleq
  have hFmem : F ∈ pre ++ F :: post := List.mem_append_right _ (List.mem_cons_self _ _)
  obtain ⟨s', hs', hs2, hs28, hlow, hin⟩ := free_block_facts _ heapptr bs _ hw' F hFmem
  have hin' : F + s' ≤ heapptr + n := hin
  have hs'' := load32_heapPart hn hs'
  rw [hF] at hs''
  have hss : s = s' := Option.some.inj hs''
  subst hss
  unfold freeList at hfl
  cases hfirst : load64 (m.heapPart n) (heapptr + 8) with
  | none => rw [hfirst] at hfl; cases hfl
  | some first =>
    rw [hfirst] at hfl
    simp only at hfl
    have hfl' : freeListFrom (n + 1) (m.heapPart n) first = some (pre ++ F :: post) := hfl
    have hflm := freeListFrom_heapPart hn _ _ _ hfl'
    have hfirst' := load64_heapPart hn hfirst
    have hU' := hU
    rw [U64_eq] at hU'
    have hlinks := freeList_links _ _ _ first 0 hfl hprev
    obtain ⟨-, q, nx, hq, hnx, hqm, hnxm⟩ := hlinks F hFmem
    have hq' := load64_heapPart hn hq
    have hnx' := load64_heapPart hn hnx
    have a16 : ADD_BYTES F 16 = F + 16 := by
      have := (load64_inRange hq').2.2
      unfold ADD_BYTES; rw [U64_eq]; omega
    have a8 : ADD_BYTES F 8 = F + 8 := by
      have := (load64_inRange hq').2.2
      unfold ADD_BYTES; rw [U64_eq]; omega
    have ah : ADD_BYTES heapptr 8 = heapptr + 8 := by
      have := (load64_inRange hfirst').2.2
      unfold ADD_BYTES; rw [U64_eq]; omega
    have hp : q ≠ 0 → m.inRange (ADD_BYTES q 8) 8 := by
      intro hq0
      rcases hqm with h | h
      · exact absurd h hq0
      · obtain ⟨-, -, nx2, -, h2, -, -⟩ := hlinks q h
        have hr := load64_inRange (load64_heapPart hn h2)
        have : ADD_BYTES q 8 = q + 8 := by
          have := hr.2.2
          unfold ADD_BYTES; rw [U64_eq]; omega
        rw [this]; exact hr
    have hnn : nx ≠ 0 → m.inRange (ADD_BYTES nx 16) 8 := by
      intro hn0
      rcases hnxm with h | h
      · exact absurd h hn0
      · obtain ⟨-, q2, -, h1, -, -, -⟩ := hlinks nx h
        have hr := load64_inRange (load64_heapPart hn h1)
        have : ADD_BYTES nx 16 = nx + 16 := by
          have := hr.2.2
          unfold ADD_BYTES; rw [U64_eq]; omega
        rw [this]; exact hr
    have hsmall : ∀ p ∈ pre, ∃ sp, load32 m p = some sp ∧ sp < total_size A block_size := by
      intro p hpm
      obtain ⟨sp, h1, -⟩ := free_block_facts _ heapptr bs _ hw' p (List.mem_append_left _ hpm)
      have h1' := load32_heapPart hn h1
      exact ⟨sp, h1', hpre p hpm sp h1'⟩
    have hlen := freeListFrom_length _ _ _ _ hflm
    have hloop := alloc_loop_skip m heapptr first (total_size A block_size) F s post hU hF hfit
      pre (n + 1) first (m.len + 1) hflm hsmall
      (by simp only [List.length_append, List.length_cons] at hlen; omega)
    have heq : hl_alloc A m heapptr block_size =
        alloc_take m heapptr first F (total_size A block_size) := by
      unfold hl_alloc
      rw [if_neg (by omega)]
      simp only [Option.bind_eq_bind]
      rw [hsize', Option.some_bind, if_neg (by omega), ah, hfirst', Option.some_bind, hloop]
    refine ⟨?_, ?_⟩
    · intro r hr
      rw [heq] at hr
      exact alloc_take_fst _ _ _ _ _ _ hr
    · intro hroom
      obtain ⟨m1, h1, h2, -, -⟩ := alloc_take_ok m heapptr first F (total_size A block_size) s
        q nx hU (by rw [a16]; exact hq') (by rw [a8]; exact hnx') hF hs2 hs28
        (total_size_mod4 A block_size hA4 hA32) hfit hroom (by omega) (by omega)
        (by rw [ah]; exact load64_inRange hfirst') (by rw [ah]; omega) hp hnn
      exact ⟨m1, by rw [heq, h1], by omega, h2⟩

set_option maxRecDepth 100000 in
/-- Witness for C7.  With the free list of a 100-sized block followed by a
50-sized block, a request of 32 bytes (`total_size` 40) fits both and is served
from the 100-sized block at 4112; with the list in the other order, a request
of 60 bytes (`total_size` 72) skips the 50-sized block and is served from the
100-sized block.  On `caseTwoHeap` a request of 24 bytes (`total_size` 32)
leaves a tail of 8 bytes of the 40-sized block at 4112, which is returned.  On
`slackHeap`, a heap of 1000 bytes in an object of 1100 bytes, a request of 856
bytes (`total_size` 864) leaves a tail of 8 bytes of the 872-sized block at
4224, which is returned. -/
theorem first_fit_of_wellFormed_witness :
    (4 ∣ 8 ∧ 8 ∣ U32) ∧
    (WellFormed (fitHeap.heapPart 182) 4096 ∧
      freeList (fitHeap.heapPart 182) 4096 = some [4112, 4228] ∧
      load32 fitHeap 4112 = some 100 ∧ load32 fitHeap 4228 = some 50 ∧
      total_size 8 32 = 40 ∧
      ∃ m1, hl_alloc 8 fitHeap 4096 32 = some (4112, m1) ∧ 4112 ≠ 0 ∧
        load32 m1 4112 = some (total_size 8 32 + 1)) ∧
    (WellFormed (fitHeapRev.heapPart 182) 4096 ∧
      freeList (fitHeapRev.heapPart 182) 4096 = some [4228, 4112] ∧
      load32 fitHeapRev 4228 = some 50 ∧ load32 fitHeapRev 4112 = some 100 ∧
      total_size 8 60 = 72 ∧
      ∃ m1, hl_alloc 8 fitHeapRev 4096 60 = some (4112, m1) ∧ 4112 ≠ 0 ∧
        load32 m1 4112 = some (total_size 8 60 + 1)) ∧
    (WellFormed (caseTwoHeap.heapPart 104) 4096 ∧
      freeList (caseTwoHeap.heapPart 104) 4096 = some [4112] ∧
      load32 caseTwoHeap 4112 = some 40 ∧ total_size 8 24 = 32 ∧
      ∃ m1, hl_alloc 8 caseTwoHeap 4096 24 = some (4112, m1) ∧ 4112 ≠ 0 ∧
        load32 m1 4112 = some (total_size 8 24 + 1)) ∧
    (WellFormed (slackHeap.heapPart 1000) 4096 ∧
      freeList (slackHeap.heapPart 1000) 4096 = some [4224] ∧
      load32 slackHeap 4224 = some 872 ∧ total_size 8 856 = 864 ∧
      ∃ m1, hl_alloc 8 slackHeap 4096 856 = some (4224, m1) ∧ 4224 ≠ 0 ∧
        load32 m1 4224 = some (total_size 8 856 + 1)) := by
  have h50 : load32 fitHeapRev 4228 = some 50 := by decide!
  refine ⟨⟨by decide, by decide⟩,
    ⟨by decide!, by decide!, by decide!, by decide!, by decide!, ?_⟩,
    ⟨by decide!, by decide!, h50, by decide!, by decide!, ?_⟩,
    ⟨by decide!, by decide!, by decide!, by decide!, ?_⟩,
    ⟨by decide!, by decide!, by decide!, by decide!, ?_⟩⟩
  · exact (first_fit_of_wellFormed 8 fitHeap 182 4096 32 [] [4228] 4112 100 (by decide)
      (by decide) (by decide) (by decide) (by decide!) (by decide!) (by decide)
      (fun p hp => by cases hp) (by decide!) (by decide!)).2 (Or.inr (by decide!))
  · refine (first_fit_of_wellFormed 8 fitHeapRev 182 4096 60 [4228] [] 4112 100 (by decide)
      (by decide) (by decide) (by decide) (by decide!) (by decide!) (by decide) ?_
      (by decide!) (by decide!)).2 (Or.inr (by decide!))
    intro p hp sp hsp
    have hp2 : p = 4228 := List.mem_singleton.mp hp
    subst hp2
    rw [h50] at hsp
    cases hsp
    decide!
  · exact (first_fit_of_wellFormed 8 caseTwoHeap 104 4096 24 [] [] 4112 40 (by decide)
      (by decide) (by decide) (by decide) (by decide!) (by decide!) (by decide)
      (fun p hp => by cases hp) (by decide!) (by decide!)).2 (Or.inr (by decide!))
  · exact (first_fit_of_wellFormed 8 slackHeap 1000 4096 856 [] [] 4224 872 (by decide)
      (by decide) (by decide!) (by decide!) (by decide!) (by decide!) (by decide)
      (fun p hp => by cases hp) (by decide!) (by decide!)).2 (Or.inr (by decide!))

set_option maxRecDepth 100000 in
/-- C8.  The payload is not preserved by `hl_resize`.  On the heap
of 1000 bytes at 4096, `hl_alloc` of 100 bytes returns 4112; the caller writes
`pattern100` at 4112 .. 4211 and reads it back; `hl_resize` to 200 bytes
returns 4228 for every indeterminate value, and the 100 bytes at 4228 are not
the pattern: they start with 1, 2, 3, 4, the bytes the caller wrote at
4116 .. 4119, because line 351 copies from 4 bytes past the reference that
`hl_alloc` returned. -/
theorem resize_payload_not_preserved :
    Returns oneAlloc (fun a => a.1 = 4112 ∧
      Returns (write_bytes a.2 a.1 pattern100) (fun m =>
        read_bytes m a.1 100 = some pattern100)) ∧
    (∀ u : Int, Returns (resizeAfterWrite u) (fun q =>
      q.1 = 4228 ∧ read_bytes q.2 q.1 100 ≠ some pattern100 ∧
      read_bytes q.2 q.1 4 = some [1, 2, 3, 4])) := by
  refine ⟨by decide!, ?_⟩
  intro u
  have key : ∀ v ∈ [(0 : Int), 1, 2], Returns (resizeAfterWrite v) (fun q =>
      q.1 = 4228 ∧ read_bytes q.2 q.1 100 ≠ some pattern100 ∧
      read_bytes q.2 q.1 4 = some [1, 2, 3, 4]) := by decide!
  have h := key _ (uclass_mem u)
  unfold resizeAfterWrite at h ⊢
  simp only [hl_resize_uclass _ _ _ _ _ u]
  exact h

/-- C9.  Resize failure is atomic.  For a region that ends below
2^64: `hl_resize` returns null with the memory unchanged when the new size is
0, the block or the heap reference is null, or the inner `hl_alloc` returns
null; and whenever `hl_resize` returns null, the memory is the one it was
called with and one of these four causes holds, so no byte of the original
block has changed and `hl_release` has not run. -/
theorem resize_failure_atomic (A : Nat) (m : Mem) (heapptr blockptr new_block_size : Nat)
    (u : Int) (hm : m.base + m.len < U64) :
    (new_block_size = 0 ∨ blockptr = 0 ∨ heapptr = 0 →
      hl_resize A m heapptr blockptr new_block_size u = some (0, m)) ∧
    (∀ m1, hl_alloc A m heapptr new_block_size = some (0, m1) →
      hl_resize A m heapptr blockptr new_block_size u = some (0, m)) ∧
    (∀ m2, hl_resize A m heapptr blockptr new_block_size u = some (0, m2) →
      m2 = m ∧ (new_block_size = 0 ∨ blockptr = 0 ∨ heapptr = 0 ∨
        hl_alloc A m heapptr new_block_size = some (0, m))) := by
  refine ⟨?_, ?_, ?_⟩
  · intro hv
    unfold hl_resize
    rw [if_pos hv]
  · intro m1 ha
    have hm1 : m1 = m := by
      rcases hl_alloc_result _ _ _ _ _ ha with h | h
      · exact h.2
      · exact absurd rfl h.1
    subst hm1
    unfold hl_resize
    by_cases hv : new_block_size = 0 ∨ blockptr = 0 ∨ heapptr = 0
    · rw [if_pos hv]
    · rw [if_neg hv, ha]
      simp only [Option.bind_eq_bind, Option.some_bind, if_true]
  · intro m2 h
    unfold hl_resize at h
    by_cases hv : new_block_size = 0 ∨ blockptr = 0 ∨ heapptr = 0
    · rw [if_pos hv] at h
      cases h
      refine ⟨rfl, ?_⟩
      rcases hv with hv | hv | hv
      · exact Or.inl hv
      · exact Or.inr (Or.inl hv)
      · exact Or.inr (Or.inr (Or.inl hv))
    rw [if_neg hv] at h
    cases ha : hl_alloc A m heapptr new_block_size with
    | none => rw [ha] at h; cases h
    | some r =>
      obtain ⟨p, m1⟩ := r
      rw [ha] at h
      simp only [Option.bind_eq_bind, Option.some_bind] at h
      rcases hl_alloc_result _ _ _ _ _ ha with hr | hr
      · obtain ⟨hp, hm1⟩ := hr
        simp only at hp hm1
        subst hp; subst hm1
        rw [if_pos rfl] at h
        cases h
        exact ⟨rfl, Or.inr (Or.inr (Or.inr rfl))⟩
      · simp only at hr
        have hp : p ≠ 0 := hr.1
        rw [if_neg hp] at h
        simp only [Option.bind_eq_some] at h
        obtain ⟨osz, -, m3, -, m4, -, h⟩ := h
        have h0 : ADD_BYTES p 4 = 0 := congrArg Prod.fst (Option.some.inj h)
        unfold ADD_BYTES at h0
        have hlt : p + 4 < U64 := lt_of_le_of_lt hr.2.2 hm
        rw [Nat.mod_eq_of_lt hlt] at h0
        omega

set_option maxRecDepth 100000 in
/-- Witness for C9: on the heap of 1000 bytes at 4096, a resize to 2000 bytes
fails in the inner `hl_alloc` and returns null with the memory unchanged. -/
theorem resize_failure_atomic_witness :
    heap1000.base + heap1000.len < U64 ∧
    hl_alloc 8 heap1000 4096 2000 = some (0, heap1000) ∧
    hl_resize 8 heap1000 4096 4112 2000 0 = some (0, heap1000) :=
  ⟨by decide, rfl,
    (resize_failure_atomic 8 heap1000 4096 4112 2000 0 (by decide)).2.1 heap1000 rfl⟩

set_option maxRecDepth 100000 in
/-- C10.  With a null block reference `hl_resize` returns null and
leaves the memory as it is (line 343), for every heap and size, whereas
`hl_alloc` on the heap of 1000 bytes at 4096 returns the reference 4112 for
100 bytes and marks the block at 4112 allocated. -/
theorem resize_null_block_is_not_alloc :
    (∀ (A : Nat) (m : Mem) (heapptr new_block_size : Nat) (u : Int),
      hl_resize A m heapptr 0 new_block_size u = some (0, m)) ∧
    Returns (hl_init 8 region1000 4096 1000) (fun r =>
      Returns (hl_alloc 8 r.2 4096 100) (fun a =>
        a.1 = 4112 ∧ a.1 ≠ 0 ∧ load32 r.2 4112 = some 984 ∧ load32 a.2 4112 = some 113)) := by
  refine ⟨?_, by decide!⟩
  intro A m heapptr new_block_size u
  unfold hl_resize
  rw [if_pos (Or.inr (Or.inl rfl))]

set_option maxRecDepth 100000 in
/-- C11.  After `hl_init` the trailing size field of the free block does not
hold the block size.  On the aligned region of 1000 zero bytes at 4096,
`hl_init` returns 1, the descriptor records size 1000 and `first_free` 4112,
the block at 4112 has leading size field 984 and null `next_free` and
`prev_free`, but the last word of the region, at 5092, holds 1000 (line 62),
not 984. -/
theorem init_trailing_field_holds_heap_size :
    Returns (hl_init 8 region1000 4096 1000) (fun r =>
      r.1 = 1 ∧ load32 r.2 4096 = some 1000 ∧ load64 r.2 (4096 + 8) = some (4096 + 16) ∧
      load32 r.2 (4096 + 16) = some (1000 - 16) ∧
      load64 r.2 (4112 + 8) = some 0 ∧ load64 r.2 (4112 + 16) = some 0 ∧
      load32 r.2 (4096 + 1000 - 4) = some 1000 ∧
      load32 r.2 (4096 + 1000 - 4) ≠ some (1000 - 16)) := by
  decide!

/-- C12.  The value returned by `hl_init`.  Every result that `hl_init` returns
is 0 or 1, and it is 0 exactly when the region reference is null or
`heap_size` is less than 16, the size of the descriptor.  With a null
reference the call returns 0 and leaves the memory as it is.  With a reference
that is not null and `heap_size` an `unsigned int`, the call does return, 0
for `heap_size < 16` and 1 otherwise, when the 16 bytes of the descriptor at
`init_heap` lie in the caller's object and, for `heap_size` of 16 or more, so
do the 24 bytes of the free block header behind it and the `heap_size` bytes
from `init_heap`. -/
theorem init_return_value (A : Nat) (m : Mem) (heapptr heap_size : Nat) :
    (∀ r m1, hl_init A m heapptr heap_size = some (r, m1) →
      (r = 0 ↔ heapptr = 0 ∨ heap_size < 16) ∧ (r = 0 ∨ r = 1)) ∧
    (heapptr = 0 → hl_init A m heapptr heap_size = some (0, m)) ∧
    (heapptr ≠ 0 → heap_size < U32 → m.base + m.len < U64 →
      m.inRange (init_heap A heapptr) 16 →
      (16 ≤ heap_size → m.inRange (init_heap A heapptr) 40 ∧
        init_heap A heapptr + heap_size ≤ m.base + m.len) →
      ∃ m1, hl_init A m heapptr heap_size = some (if heap_size < 16 then 0 else 1, m1)) := by
  rw [hl_init_eq]
  generalize init_heap A heapptr = heap
  refine ⟨?_, ?_, ?_⟩
  · intro r m1 h
    by_cases h0 : heapptr = 0
    · rw [if_pos h0] at h
      have hr : r = 0 := (congrArg Prod.fst (Option.some.inj h)).symm
      exact ⟨⟨fun _ => Or.inl h0, fun _ => hr⟩, Or.inl hr⟩
    · rw [if_neg h0] at h
      simp only [Option.bind_eq_some] at h
      obtain ⟨ma, -, mb, -, h⟩ := h
      by_cases hs : heap_size < 16
      · rw [if_pos hs] at h
        have hr : r = 0 := (congrArg Prod.fst (Option.some.inj h)).symm
        exact ⟨⟨fun _ => Or.inr hs, fun _ => hr⟩, Or.inl hr⟩
      · rw [if_neg hs] at h
        simp only [Option.bind_eq_some] at h
        obtain ⟨root, -, mc, -, md, -, me, -, rs, -, mf, -, h⟩ := h
        have hr : r = 1 := (congrArg Prod.fst (Option.some.inj h)).symm
        refine ⟨⟨fun hz => ?_, fun hc => ?_⟩, Or.inr hr⟩
        · rw [hr] at hz; cases hz
        · rcases hc with hc | hc
          · exact absurd hc h0
          · exact absurd hc hs
  · intro h0
    rw [if_pos h0]
  · intro h0 hs32 hU hd hroom
    rw [if_neg h0]
    rw [U32_eq] at hs32
    rw [U64_eq] at hU
    obtain ⟨d0, d1, d2⟩ := hd
    have e8 : ADD_BYTES heap 8 = heap + 8 := by
      unfold ADD_BYTES; rw [U64_eq]; omega
    have e16 : ADD_BYTES heap 16 = heap + 16 := by
      unfold ADD_BYTES; rw [U64_eq]; omega
    have r8 : m.inRange (heap + 8) 8 := ⟨by omega, by omega, by omega⟩
    have hd : m.inRange heap 4 := ⟨d0, d1, by omega⟩
    rw [e8, e16]
    obtain ⟨m1, hs1, hb1, hl1, hy1⟩ := store32_step m heap heap_size hd
    rw [hs1, Option.some_bind]
    obtain ⟨m2, hs2, hb2, hl2, hy2⟩ := store64_step m1 (heap + 8) (heap + 16)
      (inRange_congr hb1 hl1 r8)
    rw [hs2, Option.some_bind]
    have hb2' := hb2.trans hb1
    have hl2' := hl2.trans hl1
    by_cases hs : heap_size < 16
    · rw [if_pos hs, if_pos hs]
      exact ⟨m2, rfl⟩
    · rw [if_neg hs, if_neg hs]
      obtain ⟨⟨-, -, q2⟩, q3⟩ := hroom (by omega)
      have h4 : (256 : Nat) ^ 4 = 4294967296 := by decide
      have h8 : (256 : Nat) ^ 8 = 18446744073709551616 := by decide
      have v16 : (heap + 16) % 18446744073709551616 = heap + 16 := by omega
      have vs : sub64 heap_size 16 % 4294967296 = heap_size - 16 := by
        unfold sub64; rw [U64_eq]; omega
      have ea : ADD_BYTES (heap + 16) 8 = heap + 16 + 8 := by
        unfold ADD_BYTES; rw [U64_eq]; omega
      have eb : ADD_BYTES (heap + 16) 16 = heap + 16 + 16 := by
        unfold ADD_BYTES; rw [U64_eq]; omega
      have ec : ADD_BYTES (heap + 16) (sub64 (heap_size - 16) 4) = heap + heap_size - 4 := by
        unfold ADD_BYTES sub64; rw [U64_eq]; omega
      have a1 : m.inRange (heap + 16) 4 := ⟨by omega, by omega, by omega⟩
      have a2 : m.inRange (heap + 16 + 8) 8 := ⟨by omega, by omega, by omega⟩
      have a3 : m.inRange (heap + 16 + 16) 8 := ⟨by omega, by omega, by omega⟩
      have a4 : m.inRange (heap + heap_size - 4) 4 := ⟨by omega, by omega, by omega⟩
      have o1 : heap + 16 + 4 ≤ heap + 16 + 8 ∨ heap + 16 + 8 + 8 ≤ heap + 16 := by omega
      have o2 : heap + 16 + 4 ≤ heap + 16 + 16 ∨ heap + 16 + 16 + 8 ≤ heap + 16 := by omega
      clear hs32 hU q2 q3 d2
      have hroot : load64 m2 (heap + 8) = some (heap + 16) := by
        refine load64_of_bytes (inRange_congr hb2' hl2' r8) ?_
        rw [hy2, readLE_writeLE_same, h8, v16]
      rw [hroot, Option.some_bind, ea, eb]
      obtain ⟨m3, hs3, hb3, hl3, hy3⟩ := store32_step m2 (heap + 16) (sub64 heap_size 16)
        (inRange_congr hb2' hl2' a1)
      rw [hs3, Option.some_bind]
      have hb3' := hb3.trans hb2'
      have hl3' := hl3.trans hl2'
      obtain ⟨m4, hs4, hb4, hl4, hy4⟩ := store64_step m3 (heap + 16 + 8) 0
        (inRange_congr hb3' hl3' a2)
      rw [hs4, Option.some_bind]
      have hb4' := hb4.trans hb3'
      have hl4' := hl4.trans hl3'
      obtain ⟨m5, hs5, hb5, hl5, hy5⟩ := store64_step m4 (heap + 16 + 16) 0
        (inRange_congr hb4' hl4' a3)
      rw [hs5, Option.some_bind]
      have hb5' := hb5.trans hb4'
      have hl5' := hl5.trans hl4'
      have hrs : load32 m5 (heap + 16) = some (heap_size - 16) := by
        refine load32_of_bytes (inRange_congr hb5' hl5' a1) ?_
        rw [hy5, readLE_writeLE_disj _ _ _ _ _ _ o2, hy4, readLE_writeLE_disj _ _ _ _ _ _ o1,
          hy3, readLE_writeLE_same, h4, vs]
      rw [hrs, Option.some_bind, ec]
      obtain ⟨m6, hs6, -, -, -⟩ := store32_step m5 (heap + heap_size - 4) heap_size
        (inRange_congr hb5' hl5' a4)
      rw [hs6, Option.some_bind]
      exact ⟨m6, rfl⟩

set_option maxRecDepth 100000 in
/-- Witness for C12: on an object of 40 zero bytes at 4096 with `ALIGNMENT` 8,
`hl_init` returns 0 for `heap_size` 8 and 15 and 1 for `heap_size` 16, 39 and
40; with a null reference it returns 0. -/
theorem init_return_value_witness :
    (∃ m1, hl_init 8 (zeroRegion 40) 4096 8 = some (0, m1)) ∧
    (∃ m1, hl_init 8 (zeroRegion 40) 4096 15 = some (0, m1)) ∧
    (∃ m1, hl_init 8 (zeroRegion 40) 4096 16 = some (1, m1)) ∧
    (∃ m1, hl_init 8 (zeroRegion 40) 4096 39 = some (1, m1)) ∧
    (∃ m1, hl_init 8 (zeroRegion 40) 4096 40 = some (1, m1)) ∧
    hl_init 8 (zeroRegion 40) 0 40 = some (0, zeroRegion 40) := by
  have hh : init_heap 8 4096 = 4096 := by decide!
  have hr16 : (zeroRegion 40).inRange (init_heap 8 4096) 16 := by rw [hh]; decide
  have hr40 : (zeroRegion 40).inRange (init_heap 8 4096) 40 := by rw [hh]; decide
  have hU : (zeroRegion 40).base + (zeroRegion 40).len < U64 := by decide
  refine ⟨?_, ?_, ?_, ?_, ?_, ?_⟩
  · exact (init_return_value 8 (zeroRegion 40) 4096 8).2.2 (by decide) (by decide) hU hr16
      (fun h => absurd h (by decide))
  · exact (init_return_value 8 (zeroRegion 40) 4096 15).2.2 (by decide) (by decide) hU hr16
      (fun h => absurd h (by decide))
  · exact (init_return_value 8 (zeroRegion 40) 4096 16).2.2 (by decide) (by decide) hU hr16
      (fun _ => ⟨hr40, by rw [hh]; decide⟩)
  · exact (init_return_value 8 (zeroRegion 40) 4096 39).2.2 (by decide) (by decide) hU hr16
      (fun _ => ⟨hr40, by rw [hh]; decide⟩)
  · exact (init_return_value 8 (zeroRegion 40) 4096 40).2.2 (by decide) (by decide) hU hr16
      (fun _ => ⟨hr40, by rw [hh]; decide⟩)
  · exact (init_return_value 8 (zeroRegion 40) 0 40).2.1 rfl

/-- C13.  Size fields of the allocated block.  Let `ALIGNMENT` be positive and
even, the heap well formed, and let some multiple `k` of `ALIGNMENT` with
`block_size + 8 ≤ k` be below 2^32 (no wrap-around in the size computation).
When `hl_alloc` returns a reference `p` other than null, then `total_size` is
the least multiple of `ALIGNMENT` that is at least `block_size + 8`; `p` is the
address of the chosen free block, the earliest block of the free list whose
size is at least `total_size`; and in the resulting memory the size field at
`p` and the size field at `p + total_size - 4` both hold `total_size | 1`. -/
theorem alloc_block_tags (A : Nat) (m : Mem) (heapptr block_size k p : Nat) (m1 : Mem)
    (hA : 0 < A) (hA2 : 2 ∣ A)
    (hwf : WellFormed m heapptr)
    (hk1 : A ∣ k) (hk2 : block_size + 8 ≤ k) (hk3 : k < U32)
    (h : hl_alloc A m heapptr block_size = some (p, m1)) (hp : p ≠ 0) :
    (A ∣ total_size A block_size ∧ block_size + 8 ≤ total_size A block_size ∧
      ∀ j, A ∣ j → block_size + 8 ≤ j → total_size A block_size ≤ j) ∧
    (∃ pre post s, freeList m heapptr = some (pre ++ p :: post) ∧ load32 m p = some s ∧
      total_size A block_size ≤ s ∧
      ∀ q ∈ pre, ∀ sq, load32 m q = some sq → sq < total_size A block_size) ∧
    load32 m1 p = some (total_size A block_size ||| 1) ∧
    load32 m1 (p + total_size A block_size - 4) = some (total_size A block_size ||| 1) := by
  obtain ⟨hT1, hT2, hT3⟩ := total_size_least A block_size k hA hk1 hk2 hk3
  have hTeven : total_size A block_size % 2 = 0 :=
    Nat.mod_eq_zero_of_dvd (Nat.dvd_trans hA2 hT1)
  have hleast : ∀ j, A ∣ j → block_size + 8 ≤ j → total_size A block_size ≤ j := by
    intro j hj1 hj2
    by_cases hj3 : j < U32
    · exact (total_size_least A block_size j hA hj1 hj2 hj3).2.2
    · omega
  refine ⟨⟨hT1, hT2, hleast⟩, ?_⟩
  rw [lor_one_of_even _ hTeven]
  generalize hTdef : total_size A block_size = T at *
  have hwf0 := hwf
  obtain ⟨bs, fl, hw⟩ := hwf
  have hw' := hw
  obtain ⟨hbase, hne, hU, hsize, -, -, hfl, hprev, -⟩ := hw
  have hfl0 := hfl
  have hsz : ∀ q ∈ fl, ∃ sq, load32 m q = some sq := by
    intro q hq
    obtain ⟨sq, h1, -⟩ := free_block_facts m heapptr bs _ hw' q hq
    exact ⟨sq, h1⟩
  have hU' := hU
  rw [U64_eq] at hU'
  rw [U32_eq] at hk3
  rcases first_fit_split m T fl hsz with hnone | ⟨pre, F, post, s, hsplit, hF, hfit, hpre⟩
  · exfalso
    by_cases hnil : fl = []
    · subst hnil
      unfold hl_alloc at h
      by_cases hv : block_size = 0 ∨ heapptr = 0
      · rw [if_pos hv] at h
        exact hp (congrArg Prod.fst (Option.some.inj h)).symm
      rw [if_neg hv] at h
      simp only [Option.bind_eq_bind] at h
      rw [hsize, Option.some_bind] at h
      by_cases hbig : total_size A block_size > m.len
      · rw [if_pos hbig] at h
        exact hp (congrArg Prod.fst (Option.some.inj h)).symm
      rw [if_neg hbig] at h
      unfold freeList at hfl
      cases hfirst : load64 m (heapptr + 8) with
      | none => rw [hfirst] at hfl; cases hfl
      | some first =>
        rw [hfirst] at hfl
        simp only at hfl
        have hz : first = 0 := freeListFrom_nil _ _ _ hfl
        subst hz
        have ah : ADD_BYTES heapptr 8 = heapptr + 8 := by
          have := (load64_inRange hfirst).2.2
          unfold ADD_BYTES
          rw [U64_eq]
          omega
        rw [ah, hfirst, Option.some_bind] at h
        unfold alloc_loop at h
        have hl0 : load32 m 0 = none := by
          unfold load32
          rw [if_neg (fun hr => hr.1 rfl)]
        simp only [Option.bind_eq_bind] at h
        rw [hl0] at h
        cases h
    · have := alloc_exhausted_nonempty A m heapptr block_size fl hwf0 hfl hnil
        (by rw [hTdef]; exact hnone)
      rw [this] at h
      exact hp (congrArg Prod.fst (Option.some.inj h)).symm
  · subst hsplit
    have hFmem : F ∈ pre ++ F :: post := List.mem_append_right _ (List.mem_cons_self _ _)
    obtain ⟨s', hs', hs2, hs28, hlow, hin⟩ := free_block_facts m heapptr bs _ hw' F hFmem
    rw [hF] at hs'
    have hss : s = s' := Option.some.inj hs'
    subst hss
    have hbs : ¬ (block_size = 0 ∨ heapptr = 0) := by
      intro hv
      unfold hl_alloc at h
      rw [if_pos hv] at h
      exact hp (congrArg Prod.fst (Option.some.inj h)).symm
    unfold freeList at hfl
    cases hfirst : load64 m (heapptr + 8) with
    | none => rw [hfirst] at hfl; cases hfl
    | some first =>
      rw [hfirst] at hfl
      simp only at hfl
      have ah : ADD_BYTES heapptr 8 = heapptr + 8 := by
        have := (load64_inRange hfirst).2.2
        unfold ADD_BYTES; rw [U64_eq]; omega
      have hsmall : ∀ q ∈ pre, ∃ sq, load32 m q = some sq ∧ sq < T := by
        intro q hqm
        obtain ⟨sq, h1⟩ := hsz q (List.mem_append_left _ hqm)
        exact ⟨sq, h1, hpre q hqm sq h1⟩
      have hlen := freeListFrom_length _ _ _ _ hfl
      have hloop := alloc_loop_skip m heapptr first T F s post hU hF hfit
        pre (m.len + 1) first (m.len + 1) hfl hsmall
        (by simp only [List.length_append, List.length_cons] at hlen; omega)
      have hin2 : F + s ≤ m.base + m.len := by rw [← hbase]; exact hin
      unfold hl_alloc at h
      rw [if_neg hbs] at h
      simp only [Option.bind_eq_bind] at h
      rw [hsize, Option.some_bind] at h
      by_cases hbig : total_size A block_size > m.len
      · rw [if_pos hbig] at h
        exact absurd (congrArg Prod.fst (Option.some.inj h)).symm hp
      rw [if_neg hbig, ah, hfirst, Option.some_bind, hTdef, hloop] at h
      have hpF : p = F := alloc_take_fst _ _ _ _ _ _ h
      subst hpF
      refine ⟨⟨pre, post, s, hfl0, hF, hfit, hpre⟩, ?_⟩
      unfold alloc_take at h
      simp only [Option.bind_eq_bind, Option.bind_eq_some] at h
      obtain ⟨prev, -, next, -, hs, -, r, hr, hmark⟩ := h
      exact alloc_mark_tags r.1 heapptr first p T r.2 p m1 hmark (by omega)
        (by rw [U32_eq]; omega) (by rw [U64_eq]; omega) (by rw [ah]; omega)

set_option maxRecDepth 100000 in
/-- Witness for C13: on the heap whose free list is the 50-sized block at 4228
followed by the 100-sized block at 4112, a request of 59 bytes has
`total_size` 72 and is served from the block at 4112. -/
theorem alloc_block_tags_witness :
    (0 < 8 ∧ 2 ∣ 8) ∧ WellFormed fitHeapRev 4096 ∧ (8 ∣ 72 ∧ 59 + 8 ≤ 72 ∧ 72 < U32) ∧
    total_size 8 59 = 72 ∧
    ∃ m1, hl_alloc 8 fitHeapRev 4096 59 = some (4112, m1) ∧
      (∃ pre post s, freeList fitHeapRev 4096 = some (pre ++ 4112 :: post) ∧
        load32 fitHeapRev 4112 = some s ∧ total_size 8 59 ≤ s ∧
        ∀ q ∈ pre, ∀ sq, load32 fitHeapRev q = some sq → sq < total_size 8 59) ∧
      load32 m1 4112 = some (total_size 8 59 ||| 1) ∧
      load32 m1 (4112 + total_size 8 59 - 4) = some (total_size 8 59 ||| 1) := by
  have hr : Returns (hl_alloc 8 fitHeapRev 4096 59) (fun r => r.1 = 4112) := by decide!
  obtain ⟨⟨p, m1⟩, h, hp⟩ := hr
  have hp' : p = 4112 := hp
  subst hp'
  exact ⟨⟨by decide, by decide⟩, by decide!, ⟨by decide, by decide, by decide⟩, by decide!, m1, h,
    (alloc_block_tags 8 fitHeapRev 4096 59 72 4112 m1 (by decide) (by decide) (by decide!)
      (by decide) (by decide) (by decide) h (by decide)).2⟩

set_option maxRecDepth 100000 in
/-- C15.  Release case 1 on the witness of the claim.  After `hl_init` on 1000
bytes and two allocations of 100 bytes the heap is well formed with allocated
blocks at 4112 and 4224 and the free block at 4336.  `hl_release` of 4112, the
first block, whose successor is allocated, clears the flag of the leading size
field, but for every indeterminate value the free list is still the block at
4336 alone and `first_free` is still 4336: the released block is not visited
and is not the new `first_free`. -/
theorem release_case1_block_not_listed :
    Returns twoAllocs (fun s => s.1 = 4112 ∧ s.2.1 = 4224 ∧ WellFormed s.2.2 4096 ∧
      heapBlocks s.2.2 4096 =
        some [⟨4112, 112, true⟩, ⟨4224, 112, true⟩, ⟨4336, 760, false⟩] ∧
      freeList s.2.2 4096 = some [4336]) ∧
    (∀ u : Int, Returns (releaseFirstOfTwo u) (fun m =>
      load32 m 4112 = some 112 ∧ freeList m 4096 = some [4336] ∧ 4112 ∉ [4336] ∧
      load64 m (4096 + 8) = some 4336 ∧ 4112 < 4336)) := by
  refine ⟨by decide!, ?_⟩
  intro u
  have key : ∀ v ∈ [(0 : Int), 1, 2], Returns (releaseFirstOfTwo v) (fun m =>
      load32 m 4112 = some 112 ∧ freeList m 4096 = some [4336] ∧ 4112 ∉ [4336] ∧
      load64 m (4096 + 8) = some 4336 ∧ 4112 < 4336) := by decide!
  have h := key _ (uclass_mem u)
  unfold releaseFirstOfTwo at h ⊢
  simp only [hl_release_uclass _ _ _ u]
  exact h

set_option maxRecDepth 100000 in
/-- C16.  Release case 2.  On the well-formed heap `caseTwoHeap` the allocated
block of size 24 at 4152 has the free predecessor of size 40 at 4112 and an
allocated successor.  After `hl_release` of 4152, for every indeterminate
value, the leading size field at 4112 is 64, `first_free` and the links of the
free block are unchanged, but the trailing size field of the merged block, at
4172, still holds 25: line 319 updates the leading field only. -/
theorem release_case2_trailing_field_stale :
    (WellFormed caseTwoHeap 4096 ∧
      heapBlocks caseTwoHeap 4096 =
        some [⟨4112, 40, false⟩, ⟨4152, 24, true⟩, ⟨4176, 24, true⟩]) ∧
    (∀ u : Int, Returns (hl_release caseTwoHeap 4096 4152 u) (fun m =>
      load32 m 4112 = some (40 + 24) ∧ load32 m (4112 + (40 + 24) - 4) = some 25 ∧
      load64 m (4096 + 8) = some 4112 ∧ load64 m (4112 + 8) = some 0 ∧
      load64 m (4112 + 16) = some 0)) := by
  refine ⟨by decide!, ?_⟩
  intro u
  have key : ∀ v ∈ [(0 : Int), 1, 2], Returns (hl_release caseTwoHeap 4096 4152 v) (fun m =>
      load32 m 4112 = some (40 + 24) ∧ load32 m (4112 + (40 + 24) - 4) = some 25 ∧
      load64 m (4096 + 8) = some 4112 ∧ load64 m (4112 + 8) = some 0 ∧
      load64 m (4112 + 16) = some 0) := by decide!
  rw [hl_release_uclass]
  exact key _ (uclass_mem u)

set_option maxRecDepth 100000 in
/-- C17.  Release case 4.  On the well-formed heap `caseFourHeap` the allocated
block of size 24 at 4152 lies between the free blocks of size 40 at 4112 and
at 4176.  After `hl_release` of 4152, for every indeterminate value, the
successor is no longer in the free list and `next_free` of the block at 4112
is the successor's former `next_free`, but the leading size field at 4112 is
64, not 104: the `else` of line 314 runs after the branch of line 199 and
stores the size without the successor.  The trailing size field at 4212 still
holds 40. -/
theorem release_case4_size_loses_successor :
    (WellFormed caseFourHeap 4096 ∧
      heapBlocks caseFourHeap 4096 =
        some [⟨4112, 40, false⟩, ⟨4152, 24, true⟩, ⟨4176, 40, false⟩] ∧
      freeList caseFourHeap 4096 = some [4112, 4176] ∧
      load64 caseFourHeap (4176 + 8) = some 0) ∧
    (∀ u : Int, Returns (hl_release caseFourHeap 4096 4152 u) (fun m =>
      load32 m 4112 = some 64 ∧ 64 ≠ 40 + 24 + 40 ∧
      load32 m (4112 + (40 + 24 + 40) - 4) = some 40 ∧
      load64 m (4112 + 8) = some 0 ∧ freeList m 4096 = some [4112])) := by
  refine ⟨by decide!, ?_⟩
  intro u
  have key : ∀ v ∈ [(0 : Int), 1, 2], Returns (hl_release caseFourHeap 4096 4152 v) (fun m =>
      load32 m 4112 = some 64 ∧ 64 ≠ 40 + 24 + 40 ∧
      load32 m (4112 + (40 + 24 + 40) - 4) = some 40 ∧
      load64 m (4112 + 8) = some 0 ∧ freeList m 4096 = some [4112]) := by decide!
  rw [hl_release_uclass]
  exact key _ (uclass_mem u)

set_option maxRecDepth 100000 in
/-- C18.  `hl_release` does not stay inside the blocks.  After `hl_init` on 1000
bytes and three allocations of 100 bytes (a well-formed heap): for the first
block, line 163 takes the word at 4108, inside the descriptor, as the trailing
size field of a predecessor, and the test of line 168 compares 4095 with null;
releasing the second block overwrites `first_free` in the descriptor when the
indeterminate value is not 1, and when it is 1 the backward search stops on
the word at 4107 and stores the descriptor address 4111 as `prev_free`;
releasing the third block with indeterminate value 1 leaves the region. -/
theorem release_leaves_the_blocks :
    Returns threeAllocs (fun s => WellFormed s.2.2.2 4096 ∧
      load64 s.2.2.2 (4096 + 8) = some 4448) ∧
    (SUB_BYTES 4112 4 = 4108 ∧ 4096 ≤ 4108 ∧ 4108 + 4 ≤ 4096 + 16 ∧
      SUB_BYTES 4112 (16 + 1) = 4095) ∧
    (∀ u : Int, Returns (releaseOfThree 4224 u) (fun m =>
      load64 m (4096 + 8) ≠ some 4448 ∨ load64 m (4224 + 16) = some 4111)) ∧
    Faults (releaseOfThree 4336 1) := by
  refine ⟨by decide!, by decide!, ?_, by decide!⟩
  intro u
  have key : ∀ v ∈ [(0 : Int), 1, 2], Returns (releaseOfThree 4224 v) (fun m =>
      load64 m (4096 + 8) ≠ some 4448 ∨ load64 m (4224 + 16) = some 4111) := by decide!
  have h := key _ (uclass_mem u)
  unfold releaseOfThree at h ⊢
  simp only [hl_release_uclass _ _ _ u]
  exact h

set_option maxRecDepth 100000 in
/-- C19.  `hl_resize` does not return the reference of its inner `hl_alloc`.
After one allocation of 100 bytes, the `hl_alloc` of 200 bytes returns 4224,
the address of the leading size field 209, while `hl_resize` to 200 bytes
returns 4228 (the result of `memcpy`, line 354), where no size field is
stored; `hl_release` and `hl_resize` called with 4228 do not return, for all
indeterminate values. -/
theorem resize_returns_shifted_reference :
    Returns oneAlloc (fun a => Returns (hl_alloc 8 a.2 4096 200) (fun b =>
      b.1 = 4224 ∧ load32 b.2 b.1 = some 209)) ∧
    (∀ u : Int, Returns (allocResize 200 u) (fun q =>
      q.1 = 4228 ∧ q.1 ≠ 4224 ∧ load32 q.2 4224 = some 209 ∧ load32 q.2 q.1 = some 0)) ∧
    (∀ u v : Int, Faults (resizeThenRelease u v)) ∧
    (∀ u v : Int, Faults (resizeThenResize u v)) := by
  refine ⟨by decide!, ?_, ?_, ?_⟩
  · intro u
    have key : ∀ v ∈ [(0 : Int), 1, 2], Returns (allocResize 200 v) (fun q =>
        q.1 = 4228 ∧ q.1 ≠ 4224 ∧ load32 q.2 4224 = some 209 ∧ load32 q.2 q.1 = some 0) := by
      decide!
    have h := key _ (uclass_mem u)
    unfold allocResize at h ⊢
    simp only [hl_resize_uclass _ _ _ _ _ u]
    exact h
  · intro u v
    have key : ∀ a ∈ [(0 : Int), 1, 2], ∀ b ∈ [(0 : Int), 1, 2],
        Faults (resizeThenRelease a b) := by decide!
    have h := key _ (uclass_mem u) _ (uclass_mem v)
    unfold resizeThenRelease allocResize at h ⊢
    simp only [hl_resize_uclass _ _ _ _ _ u, hl_release_uclass _ _ _ v]
    exact h
  · intro u v
    have key : ∀ a ∈ [(0 : Int), 1, 2], ∀ b ∈ [(0 : Int), 1, 2],
        Faults (resizeThenResize a b) := by decide!
    have h := key _ (uclass_mem u) _ (uclass_mem v)
    unfold resizeThenResize allocResize at h ⊢
    simp only [hl_resize_uclass _ _ _ _ _ u, hl_resize_uclass _ _ _ _ _ v]
    exact h

set_option maxRecDepth 100000 in
/-- C20.  The copy in `hl_resize` leaves the new block and the old block.  After
one allocation of 100 bytes (block of size 112 at 4112), the inner `hl_alloc`
of a resize to 101 bytes returns the block of size 112 at 4224, followed by
the free block at 4336 with leading size field 760.  The copy of line 351 has
length 112, reads 4116 .. 4227, which ends 4 bytes past the old block, and
writes 4228 .. 4339, which ends 4 bytes past the new block: afterwards the
leading size field of the free block at 4336 holds 113 and the blocks no
longer tile the region. -/
theorem resize_copy_overruns_new_block :
    Returns allocThenAlloc101 (fun b =>
      b.1 = 4224 ∧
      heapBlocks b.2 4096 =
        some [⟨4112, 112, true⟩, ⟨4224, 112, true⟩, ⟨4336, 760, false⟩] ∧
      load32 b.2 4112 = some 113 ∧ sub32 113 1 = 112 ∧
      ADD_BYTES 4112 4 + 112 = 4112 + 112 + 4 ∧ ADD_BYTES b.1 4 + 112 = 4224 + 112 + 4 ∧
      load32 b.2 4336 = some 760 ∧
      Returns (memcpy b.2 (ADD_BYTES b.1 4) (ADD_BYTES 4112 4) (sub32 113 1)) (fun c =>
        load32 c 4336 = some 113 ∧ ¬ Tiles c 4096)) ∧
    (∀ u : Int, Returns (allocResize 101 u) (fun q =>
      q.1 = 4228 ∧ load32 q.2 4336 = some 113)) := by
  refine ⟨by decide!, ?_⟩
  intro u
  have key : ∀ v ∈ [(0 : Int), 1, 2], Returns (allocResize 101 v) (fun q =>
      q.1 = 4228 ∧ load32 q.2 4336 = some 113) := by decide!
  have h := key _ (uclass_mem u)
  unfold allocResize at h ⊢
  simp only [hl_resize_uclass _ _ _ _ _ u]
  exact h

end Heaplib
